import Mathlib

/-!
# go-clinic: field introspection, value precedence and type-directed dispatch

A shallow embedding of `utils.go`, `value.go`, `app.go` and `command.go`.

* Go `interface{}` values are the tagged union `Iface`; a type assertion is a
  pattern match that fails with `Failure.crash`.
* A configuration record is a struct type (`Config`) whose storage cells live
  in a `Heap`; a pointer to a cell is a `Ref`.
* `os.Exit`, runtime panics and the blocking read of an exhausted standard
  input are the constructors of `Failure`; every operation that can end the
  process returns `Except Failure _`.
* The table of `unicode.ToLower` is the parameter `CaseTable`; the general
  properties hold for every table, the runs on concrete inputs use the table
  on ASCII.
-/

namespace Clinic

/-- The lower-case mapping of characters, `unicode.ToLower`, whose table is
part of the Go library: it is taken as a parameter of the model. -/
class CaseTable where
  lower : Char → Char

section

variable [CaseTable]

/-! ## Outcomes -/

/-- Ways in which a run stops before returning to its caller. -/
inductive Failure
  /-- Outcome of `App.Fatal`: the message is printed on stderr and the process exits
  with status 1. -/
  | fatal (msg : String)
  /-- Go runtime panic: failed type assertion, nil dereference or index out
  of range. -/
  | crash (why : String)
  /-- Usage or version printed, `os.Exit(0)`. -/
  | exit0
  /-- The flag engine rejected the command line (it prints the usage and
  exits). -/
  | engine
  /-- A prompt re-asks forever because standard input is exhausted. -/
  | blocked
  deriving DecidableEq, Repr

/-- Whether a failure is the fatal error path (message printed, exit status 1). -/
def Failure.isFatal : Failure → Bool
  | .fatal _ => true
  | _ => false

/-- Whether a failure is a Go runtime crash. -/
def Failure.isCrash : Failure → Bool
  | .crash _ => true
  | _ => false

/-- Equality of results is decidable, so that runs on concrete inputs can be
evaluated. -/
instance decEqExcept {ε α : Type} [DecidableEq ε] [DecidableEq α] :
    DecidableEq (Except ε α)
  | .ok a, .ok b =>
    if h : a = b then isTrue (by rw [h]) else isFalse (fun h' => h (Except.ok.inj h'))
  | .error a, .error b =>
    if h : a = b then isTrue (by rw [h]) else isFalse (fun h' => h (Except.error.inj h'))
  | .ok _, .error _ => isFalse (fun h => Except.noConfusion h)
  | .error _, .ok _ => isFalse (fun h => Except.noConfusion h)

/-! ## Strings -/

/-- Counterpart of `strings.ToLower`: every character is mapped by the case
table. -/
def toLower (s : String) : String := ⟨s.data.map CaseTable.lower⟩

/-- First byte of the UTF-8 encoding of a character. -/
def leadByte (c : Char) : Nat :=
  if c.toNat < 0x80 then c.toNat
  else if c.toNat < 0x800 then 0xC0 + c.toNat / 64
  else if c.toNat < 0x10000 then 0xE0 + c.toNat / 4096
  else 0xF0 + c.toNat / 262144

/-! ## Records, cells and descriptors -/

/-- Contents of one storage cell of a record, tagged by the Go type of the
member: `bool`, `string`, `int`, `uint`, `[]string`, or any other type. -/
inductive Cell
  | bool (b : Bool)
  | string (s : String)
  | int (i : Int)
  | uint (n : Nat)
  | stringSlice (xs : List String)
  | other (goType : String) (repr : String)
  deriving DecidableEq, Repr

/-- Counterpart of `reflect.StructField`: member name, package path (empty
exactly for exported members) and the tag as key/value pairs in order. -/
structure StructField where
  Name : String
  PkgPath : String
  Tag : List (String × String)
  deriving DecidableEq, Repr

/-- Model of `StructTag.Lookup`: the value of the first pair with the given key. -/
def StructField.lookupTag (f : StructField) (key : String) : Option String :=
  (f.Tag.find? (fun kv => kv.1 == key)).map Prod.snd

/-- Which record a pointer points into. -/
inductive RecId
  | root
  | cmd
  deriving DecidableEq, Repr

/-- A non-nil `Config` value: a pointer to a struct of the named type, with
its members in declaration order, each with the contents of its cell when
`Run` is called (the compiled-in default). -/
structure Config where
  typeName : String
  members : List (StructField × Cell)
  deriving DecidableEq, Repr

/-- A pointer to a storage cell: one of the two local booleans of `App.Run`,
or the i-th member of a record. -/
inductive Ref
  | help
  | version
  | member (r : RecId) (i : Nat)
  deriving DecidableEq, Repr

/-- The mutable cells of one run. -/
structure Heap where
  help : Bool
  version : Bool
  root : List Cell
  cmd : List Cell
  deriving DecidableEq, Repr

/-- Dereference a pointer. -/
def Heap.read (h : Heap) : Ref → Option Cell
  | .help => some (.bool h.help)
  | .version => some (.bool h.version)
  | .member .root i => h.root.get? i
  | .member .cmd i => h.cmd.get? i

/-- Store through a pointer. -/
def Heap.write (h : Heap) : Ref → Cell → Heap
  | .help, .bool b => { h with help := b }
  | .version, .bool b => { h with version := b }
  | .member .root i, c => { h with root := h.root.set i c }
  | .member .cmd i, c => { h with cmd := h.cmd.set i c }
  | _, _ => h

/-- The descriptor of `value.go`. `iface` is the pointer to the member's
cell (`value` is the same cell read through it), `short` is a rune. -/
structure field where
  typ : StructField
  iface : Ref
  short : Nat
  long : String
  usage : String
  prompt : Bool
  deriving DecidableEq, Repr

/-- Counterpart of `fieldLong` in `utils.go`. -/
def fieldLong (f : StructField) : String :=
  match f.lookupTag "long" with
  | some long => long
  | none => toLower f.Name

/-- Counterpart of `fieldShort` in `utils.go`; `short[0]` is a byte index
and panics on the empty string. -/
def fieldShort (f : StructField) : Except Failure Nat :=
  match f.lookupTag "short" with
  | some short =>
    match short.data with
    | [] => .error (.crash "index out of range [0] with length 0")
    | c :: _ => .ok (leadByte c)
  | none => .ok 0

/-- Counterpart of `fieldUsage` in `utils.go`. -/
def fieldUsage (f : StructField) : String :=
  match f.lookupTag "usage" with
  | some usage => usage
  | none => f.Name

/-- Counterpart of `promptAllowed` in `utils.go`. -/
def promptAllowed (f : StructField) : Bool :=
  match f.lookupTag "prompt" with
  | some prompt => toLower prompt == "yes"
  | none => false

/-- Body of the loop of `parseFields` for member `i`. `Addr().Interface()`
panics on a member that is not exported. -/
def parseField (r : RecId) (i : Nat) (fieldTyp : StructField) : Except Failure field :=
  if fieldTyp.PkgPath ≠ "" then
    .error (.crash "reflect.Value.Interface: cannot return value obtained from unexported field or method")
  else do
    let short ← fieldShort fieldTyp
    pure { typ := fieldTyp, iface := .member r i, short := short,
           long := fieldLong fieldTyp, usage := fieldUsage fieldTyp,
           prompt := promptAllowed fieldTyp }

/-- The loop of `parseFields` from member `i` on. -/
def parseFieldsFrom (r : RecId) : Nat → List StructField → Except Failure (List field)
  | _, [] => .ok []
  | i, m :: ms => do
    let f ← parseField r i m
    let fs ← parseFieldsFrom r (i + 1) ms
    pure (f :: fs)

/-- Counterpart of `parseFields` in `utils.go`, for a config that is nil or
a pointer to a struct; `r` is the address of that struct. -/
def parseFields (r : RecId) (config : Option Config) : Except Failure (List field) :=
  match config with
  | none => .ok []
  | some c => parseFieldsFrom r 0 (c.members.map Prod.fst)

/-! ## The configuration document -/

/-- Dynamic Go values as they occur in a decoded configuration document
(`map[interface{}]interface{}` filled by `yaml.Unmarshal`) or are handed to
`field.set`. The decoder stores a YAML boolean as `bool`, a string as
`string`, an integer as `int`, a sequence as `[]interface{}` and a mapping as
`map[interface{}]interface{}`; it never produces a `uint`. -/
inductive Iface
  | nil
  | bool (b : Bool)
  | string (s : String)
  | int (i : Int)
  | uint (n : Nat)
  | slice (xs : List Iface)
  | map (kvs : List (Iface × Iface))
  | other (goType : String) (repr : String)

/-- A `map[interface{}]interface{}` as its entries; the nil map is `none`. -/
abbrev Segment := List (Iface × Iface)

/-- Whether a map key is the given string. -/
def Iface.isKey (long : String) : Iface → Bool
  | .string s => s == long
  | _ => false

/-- Model of `v, ok := m[key]` for a string key: `none` when `ok` is false,
in particular on the nil map. -/
def mapIndex (m : Option Segment) (key : String) : Option Iface :=
  match m with
  | none => none
  | some kvs => (kvs.find? (fun kv => kv.1.isKey key)).map Prod.snd

/-- The element loop of `interfaceToStringSlice`: every element is asserted
to be a string. -/
def assertStrings : List Iface → Except Failure (List String)
  | [] => .ok []
  | .string s :: rest => do
    let tl ← assertStrings rest
    pure (s :: tl)
  | _ :: _ => .error (.crash "interface conversion: interface {} is not string")

/-- Counterpart of `interfaceToStringSlice` in `utils.go`. -/
def interfaceToStringSlice (inp : Iface) : Except Failure (List String) :=
  match inp with
  | .slice inslice => assertStrings inslice
  | _ => .error (.crash "interface conversion: interface {} is not []interface {}")

/-- Counterpart of `field.set` in `value.go`: the type switch is on the
pointer held in `iface`, each case asserts the type of `val`. -/
def field.set (f : field) (val : Iface) (h : Heap) : Except Failure Heap :=
  match h.read f.iface with
  | some (.bool _) =>
    match val with
    | .bool b => .ok (h.write f.iface (.bool b))
    | _ => .error (.crash "interface conversion: interface {} is not bool")
  | some (.string _) =>
    match val with
    | .string s => .ok (h.write f.iface (.string s))
    | _ => .error (.crash "interface conversion: interface {} is not string")
  | some (.int _) =>
    match val with
    | .int i => .ok (h.write f.iface (.int i))
    | _ => .error (.crash "interface conversion: interface {} is not int")
  | some (.uint _) =>
    match val with
    | .uint n => .ok (h.write f.iface (.uint n))
    | _ => .error (.crash "interface conversion: interface {} is not uint")
  | some (.stringSlice _) => do
    let xs ← interfaceToStringSlice val
    pure (h.write f.iface (.stringSlice xs))
  | some (.other _ _) => .ok h
  | none => .ok h

/-- The merge loop shared by `App.tryConfig` and `Command.tryConfig`: every
field whose long name is a key of the segment is set from it. -/
def mergeSegment (segment : Option Segment) : List field → Heap → Except Failure Heap
  | [], h => .ok h
  | f :: fs, h =>
    match mapIndex segment f.long with
    | some cval => do
      let h' ← f.set cval h
      mergeSegment segment fs h'
    | none => mergeSegment segment fs h

/-! ## The flag engine -/

/-- One registered option of the flag set: names, the cell it is bound to
and how often it was seen. -/
structure Opt where
  long : String
  short : Nat
  usage : String
  value : Ref
  count : Nat
  deriving DecidableEq, Repr

/-- Counterpart of `Option.Seen` of the engine. -/
def Opt.Seen (o : Opt) : Bool := decide (0 < o.count)

/-- Modelled from the spec: the flag set of the external flag-parsing engine
(github.com/pborman/getopt), which the spec keeps out of scope and requires
only to expose register-by-kind, parse, query-whether-seen and the positional
arguments. It holds the registered options in registration order and the
positional arguments left by the last parse. -/
structure FlagSet where
  options : List Opt
  args : List String
  deriving DecidableEq, Repr

/-- Counterpart of `getopt.New`. -/
def FlagSet.New : FlagSet := { options := [], args := [] }

/-- Counterpart of `Set.Lookup` for a long name: nil for a name that was
never registered. An option without long name is filed under its short name
only, so the empty name is never found. -/
def FlagSet.Lookup (s : FlagSet) (name : String) : Option Opt :=
  if name = "" then none else s.options.find? (fun o => o.long == name)

/-- Modelled from the spec: registration of one option with the external
engine, keyed by long and short name and bound to a cell. An option with
neither name is refused, and since the key identifies the option, so is a
long name other than the empty one, or a short name other than 0, that is
already declared. -/
def FlagSet.VarLong (s : FlagSet) (p : Ref) (name : String) (short : Nat) (usage : String) :
    Except Failure FlagSet :=
  if short = 0 ∧ name = "" then .error .engine
  else if s.options.any (fun o => (name != "" && o.long == name) || (short != 0 && o.short == short)) then
    .error .engine
  else
    .ok { s with options := s.options ++ [{ long := name, short := short, usage := usage, value := p, count := 0 }] }

/-- Counterpart of `addToFlags` in `utils.go`: the five pointer types each
have their registration call (`BoolVarLong`, `StringVarLong`, `IntVarLong`,
`UintVarLong`, `ListVarLong`); any other type falls through the switch. -/
def addToFlags : List field → Heap → FlagSet → Except Failure FlagSet
  | [], _, flags => .ok flags
  | f :: fs, h, flags =>
    match h.read f.iface with
    | some (.bool _) => do
      let flags' ← flags.VarLong f.iface f.long f.short f.usage
      addToFlags fs h flags'
    | some (.string _) => do
      let flags' ← flags.VarLong f.iface f.long f.short f.usage
      addToFlags fs h flags'
    | some (.int _) => do
      let flags' ← flags.VarLong f.iface f.long f.short f.usage
      addToFlags fs h flags'
    | some (.uint _) => do
      let flags' ← flags.VarLong f.iface f.long f.short f.usage
      addToFlags fs h flags'
    | some (.stringSlice _) => do
      let flags' ← flags.VarLong f.iface f.long f.short f.usage
      addToFlags fs h flags'
    | _ => addToFlags fs h flags

/-! ## Prompting -/

/-- Standard input as the successive results of `fmt.Scanln(&res)`, and the
labels of the prompts printed so far (without the `[?]` marker). -/
structure Console where
  stdin : List String
  stdout : List String
  deriving DecidableEq, Repr

/-- Counterpart of `prompt` in `utils.go`: prints the label and reads one
answer; at the end of input `res` keeps its zero value. -/
def prompt (p : String) (con : Console) : String × Console :=
  match con.stdin with
  | [] => ("", { con with stdout := con.stdout ++ [p] })
  | a :: rest => (a, { stdin := rest, stdout := con.stdout ++ [p] })

/-- Counterpart of `promptBool` in `utils.go`, by recursion on the answers
still to be read. With no answer left every read yields the empty string,
which re-prompts without end. -/
def promptBoolLoop (p : String) : List String → List String → Except Failure (Bool × Console)
  | [], _ => .error .blocked
  | a :: rest, out =>
    let res := toLower a
    if res == "yes" || res == "y" || res == "true" || res == "t" then
      .ok (true, { stdin := rest, stdout := out ++ [p ++ " (yes/no)"] })
    else if res == "no" || res == "n" || res == "false" || res == "f" then
      .ok (false, { stdin := rest, stdout := out ++ [p ++ " (yes/no)"] })
    else
      promptBoolLoop p rest (out ++ [p ++ " (yes/no)"])

/-- Entry of `promptBool` on a console. -/
def promptBool (p : String) (con : Console) : Except Failure (Bool × Console) :=
  promptBoolLoop p con.stdin con.stdout

/-- Value of a string of decimal digits; `none` on the empty string or on
any other character. -/
def parseDigits (cs : List Char) : Option Nat :=
  match cs with
  | [] => none
  | _ :: _ =>
    cs.foldl (fun acc c =>
      match acc with
      | none => none
      | some n => if c.isDigit then some (n * 10 + (c.toNat - 48)) else none) (some 0)

/-- Model of `strconv.ParseUint(s, 10, 0)` on a 64-bit platform. -/
def parseUint (s : String) : Option Nat :=
  match parseDigits s.data with
  | some n => if n < 2 ^ 64 then some n else none
  | none => none

/-- Model of `strconv.ParseInt(s, 10, 0)` on a 64-bit platform. -/
def parseInt (s : String) : Option Int :=
  match s.data with
  | [] => none
  | '+' :: ds =>
    match parseDigits ds with
    | some n => if n < 2 ^ 63 then some (Int.ofNat n) else none
    | none => none
  | '-' :: ds =>
    match parseDigits ds with
    | some n => if n ≤ 2 ^ 63 then some (- Int.ofNat n) else none
    | none => none
  | ds =>
    match parseDigits ds with
    | some n => if n < 2 ^ 63 then some (Int.ofNat n) else none
    | none => none

/-- Counterpart of `promptInt` in `utils.go`. -/
def promptIntLoop (p : String) : List String → List String → Except Failure (Int × Console)
  | [], _ => .error .blocked
  | a :: rest, out =>
    match parseInt a with
    | none => promptIntLoop p rest (out ++ [p ++ " (number)"])
    | some i => .ok (i, { stdin := rest, stdout := out ++ [p ++ " (number)"] })

/-- Entry of `promptInt` on a console. -/
def promptInt (p : String) (con : Console) : Except Failure (Int × Console) :=
  promptIntLoop p con.stdin con.stdout

/-- Counterpart of `promptUint` in `utils.go`. -/
def promptUintLoop (p : String) : List String → List String → Except Failure (Nat × Console)
  | [], _ => .error .blocked
  | a :: rest, out =>
    match parseUint a with
    | none => promptUintLoop p rest (out ++ [p ++ " (number)"])
    | some i => .ok (i, { stdin := rest, stdout := out ++ [p ++ " (number)"] })

/-- Entry of `promptUint` on a console. -/
def promptUint (p : String) (con : Console) : Except Failure (Nat × Console) :=
  promptUintLoop p con.stdin con.stdout

/-- Counterpart of `promptStringSlice` in `utils.go`: answers are appended
until an empty one; the end of input reads as an empty answer. -/
def promptStringSliceLoop (p : String) : List String → List String → List String → List String × Console
  | [], out, res =>
    (res, { stdin := [], stdout := out ++ [p ++ " (enter a blank line when finished)"] })
  | a :: rest, out, res =>
    if a == "" then
      (res, { stdin := rest, stdout := out ++ [p ++ " (enter a blank line when finished)"] })
    else
      promptStringSliceLoop p rest (out ++ [p ++ " (enter a blank line when finished)"]) (res ++ [a])

/-- Entry of `promptStringSlice` on a console. -/
def promptStringSlice (p : String) (con : Console) : List String × Console :=
  promptStringSliceLoop p con.stdin con.stdout []

/-- The type switch at the end of the loop body of `promptForMissing`: asks
for a value of the field's kind and stores it. -/
def promptField (f : field) (st : Heap × Console) : Except Failure (Heap × Console) :=
  match st.1.read f.iface with
  | some (.bool _) => do
    let r ← promptBool f.usage st.2
    pure (st.1.write f.iface (.bool r.1), r.2)
  | some (.string _) =>
    let r := prompt f.usage st.2
    .ok (st.1.write f.iface (.string r.1), r.2)
  | some (.int _) => do
    let r ← promptInt f.usage st.2
    pure (st.1.write f.iface (.int r.1), r.2)
  | some (.uint _) => do
    let r ← promptUint f.usage st.2
    pure (st.1.write f.iface (.uint r.1), r.2)
  | some (.stringSlice _) =>
    let r := promptStringSlice f.usage st.2
    .ok (st.1.write f.iface (.stringSlice r.1), r.2)
  | _ => .ok st

/-- Counterpart of `promptForMissing` in `utils.go`. `flags.Lookup` is nil
for a name that is not registered, and `opt.Seen()` then dereferences nil. -/
def promptForMissing (segment : Option Segment) (flags : FlagSet) :
    List field → Heap × Console → Except Failure (Heap × Console)
  | [], st => .ok st
  | f :: fs, st =>
    match flags.Lookup f.long with
    | none => .error (.crash "invalid memory address or nil pointer dereference")
    | some opt =>
      if opt.Seen then promptForMissing segment flags fs st
      else if (mapIndex segment f.long).isSome then promptForMissing segment flags fs st
      else if !f.prompt then promptForMissing segment flags fs st
      else do
        let st' ← promptField f st
        promptForMissing segment flags fs st'

/-! ## Parsing the command line -/

/-- One option occurrence on the command line, as the engine reads it: the
long name of the option it denotes and the value its text stands for. An
option registered without a long name has no occurrence in this model. -/
structure Occurrence where
  name : String
  value : Cell
  deriving DecidableEq, Repr

/-- An argument vector as the engine reads it: the option occurrences in
order, then the positional arguments. -/
structure CmdLine where
  occs : List Occurrence
  rest : List String
  deriving DecidableEq, Repr

/-- Counts one more occurrence of the named option. -/
def FlagSet.bump (s : FlagSet) (name : String) : FlagSet :=
  { s with options := s.options.map (fun o => if o.long == name then { o with count := o.count + 1 } else o) }

/-- Modelled from the spec: what the external engine does on one occurrence.
An unknown option, or a value that is not of the option's kind, is an engine
error. Otherwise the occurrence is counted and its value is written directly
into the bound cell; a list option that was seen before appends to what the
earlier occurrences wrote. -/
def FlagSet.see (s : FlagSet) (h : Heap) (o : Occurrence) : Except Failure (FlagSet × Heap) :=
  match s.Lookup o.name with
  | none => .error .engine
  | some opt =>
    match h.read opt.value, o.value with
    | some (.bool _), .bool b => .ok (s.bump o.name, h.write opt.value (.bool b))
    | some (.string _), .string v => .ok (s.bump o.name, h.write opt.value (.string v))
    | some (.int _), .int i => .ok (s.bump o.name, h.write opt.value (.int i))
    | some (.uint _), .uint n => .ok (s.bump o.name, h.write opt.value (.uint n))
    | some (.stringSlice old), .stringSlice xs =>
      .ok (s.bump o.name, h.write opt.value (.stringSlice (if opt.count = 0 then xs else old ++ xs)))
    | _, _ => .error .engine

/-- All occurrences of a command line, in order. -/
def FlagSet.seeAll : List Occurrence → FlagSet × Heap → Except Failure (FlagSet × Heap)
  | [], st => .ok st
  | o :: os, st => do
    let st' ← st.1.see st.2 o
    FlagSet.seeAll os st'

/-- Modelled from the spec: `Set.Parse` of the external engine, which
processes the occurrences and keeps the positional arguments. -/
def FlagSet.Parse (s : FlagSet) (argv : CmdLine) (h : Heap) : Except Failure (FlagSet × Heap) := do
  let r ← FlagSet.seeAll argv.occs (s, h)
  pure ({ r.1 with args := argv.rest }, r.2)

/-- The value of an option after one more occurrence with value `v`, when
the occurrences before gave it `acc`: lists accumulate, any other value
replaces. -/
def accumulate (acc : Option Cell) (v : Cell) : Option Cell :=
  match acc, v with
  | some (.stringSlice xs), .stringSlice ys => some (.stringSlice (xs ++ ys))
  | _, v => some v

/-- The value the command line alone gives to the named option: the value of
its last occurrence, and for a list the values of all its occurrences in
order; `none` when the option does not occur. -/
def cmdLineValue (occs : List Occurrence) (name : String) : Option Cell :=
  occs.foldl (fun acc o => if o.name == name then accumulate acc o.value else acc) none

/-! ## Applications, commands and actions -/

/-- A Go type as far as dispatch compares it: its identity, written as the
name `reflect.Type.String` prints. -/
structure GoType where
  name : String
  deriving DecidableEq, Repr

/-- The type `[]string`. -/
def typStringSlice : GoType := ⟨"[]string"⟩

/-- The type `*clinic.App`, which is `reflect.TypeOf(a)`. -/
def typApp : GoType := ⟨"*clinic.App"⟩

/-- Model of `reflect.TypeOf` on a `Config` value: nil for the nil interface. -/
def typeOfConfig : Option Config → Option GoType
  | none => none
  | some c => some ⟨"*" ++ c.typeName⟩

/-- A result type of an action with the answer of `Implements(typError)`. -/
structure OutType where
  typ : GoType
  implementsError : Bool
  deriving DecidableEq, Repr

/-- A non-nil `Action` value: a function with its parameter and result
types, or a value of some type that is not a function. -/
inductive Action
  | func (ins : List GoType) (outs : List OutType)
  | notFunc (typ : GoType)
  deriving DecidableEq, Repr

/-- The exported members of `Command` in `command.go`. -/
structure Command where
  Name : String
  Description : String
  Config : Option Config
  Action : Option Action
  Hidden : Bool
  deriving DecidableEq, Repr

/-- The `App` of `app.go`: exported members, then `fields`, `commandMap`,
`flags` and `configFile` (nil map as `none`). -/
structure App where
  Name : String
  Description : String
  Version : String
  Config : Option Config
  Action : Option Action
  Commands : List Command
  DisableHelp : Bool
  DisableVersion : Bool
  fields : List field
  commandMap : List (String × Command)
  flags : FlagSet
  configFile : Option Segment

/-- Model of `m[k] = v` on `map[string]Command`. -/
def mapSet (m : List (String × Command)) (k : String) (v : Command) : List (String × Command) :=
  (k, v) :: m.filter (fun kv => kv.1 != k)

/-- Model of `v, ok := m[k]` on `map[string]Command`. -/
def mapGet (m : List (String × Command)) (k : String) : Option Command :=
  (m.find? (fun kv => kv.1 == k)).map Prod.snd

/-- The registration loop of `App.Run` (lines 134-144). -/
def registerLoop : List Command → List (String × Command) → Except Failure (List (String × Command))
  | [], m => .ok m
  | cmd :: rest, m =>
    if cmd.Name == "" then .error (.fatal "Command names cannot be empty")
    else if cmd.Description == "" then .error (.fatal "Command descriptions cannot be empty")
    else registerLoop rest (mapSet m cmd.Name cmd)

/-- Command registration of `App.Run` (lines 132-145). -/
def registerCommands (commands : List Command) : Except Failure (List (String × Command)) :=
  if commands.length > 0 then registerLoop commands [] else .ok []

/-- A value handed to the action: `flags.Args()`, a record pointer, or the
application. -/
inductive Injected
  | args (xs : List String)
  | config (r : RecId)
  | app
  deriving DecidableEq, Repr

/-- The parameter loop of `App.Run` (lines 202-217). -/
def App.bindArgs (a : App) : List GoType → Except Failure (List Injected)
  | [] => .ok []
  | inTyp :: rest =>
    if inTyp = typStringSlice then do
      let tl ← a.bindArgs rest
      pure (.args a.flags.args :: tl)
    else if some inTyp = typeOfConfig a.Config then do
      let tl ← a.bindArgs rest
      pure (.config .root :: tl)
    else if inTyp = typApp then do
      let tl ← a.bindArgs rest
      pure (.app :: tl)
    else
      match typeOfConfig a.Config with
      | none =>
        .error (.fatal ("Action can only accept parameters of type " ++ typStringSlice.name
          ++ " or " ++ typApp.name))
      | some t =>
        .error (.fatal ("Action can only accept parameters of type " ++ typStringSlice.name
          ++ ", " ++ typApp.name ++ " or " ++ t.name))

/-- The checks on an action value shared by `App.Run` (lines 192-199) and
`Command.Run` (lines 97-104), followed by the parameter loop `bind`.
`reflect.TypeOf(nil)` is nil, and `Kind()` on it dereferences nil. -/
def checkAction (action : Option Action) (bind : List GoType → Except Failure (List Injected)) :
    Except Failure (List Injected) :=
  match action with
  | none => .error (.crash "invalid memory address or nil pointer dereference")
  | some (.notFunc _) => .error (.fatal "Action must be a function")
  | some (.func ins outs) =>
    match outs with
    | [o] =>
      if !o.implementsError then .error (.fatal "Action must return an error")
      else bind ins
    | _ => .error (.fatal "Action must return an error")

/-- Dispatch of the root action (lines 192-217 of `app.go`): the arguments
the action is called with, unless the process ends before the call. -/
def App.dispatch (a : App) : Except Failure (List Injected) :=
  checkAction a.Action a.bindArgs

/-- The message of `Command.Run` for a parameter that cannot be supplied. -/
def Command.acceptMsg (c : Command) (a : App) : String :=
  "Action can only accept parameters of type " ++ typStringSlice.name ++
  match typeOfConfig c.Config, typeOfConfig a.Config with
  | some ct, some rt => ", " ++ typApp.name ++ ", " ++ ct.name ++ " or " ++ rt.name
  | some ct, none => ", " ++ typApp.name ++ " or " ++ ct.name
  | none, some rt => ", " ++ typApp.name ++ " or " ++ rt.name
  | none, none => " or " ++ typApp.name

/-- The parameter loop of `Command.Run` (lines 107-133). -/
def Command.bindArgs (c : Command) (a : App) : List GoType → Except Failure (List Injected)
  | [] => .ok []
  | inTyp :: rest =>
    if inTyp = typStringSlice then do
      let tl ← c.bindArgs a rest
      pure (.args a.flags.args :: tl)
    else if some inTyp = typeOfConfig c.Config then do
      let tl ← c.bindArgs a rest
      pure (.config .cmd :: tl)
    else if some inTyp = typeOfConfig a.Config then do
      let tl ← c.bindArgs a rest
      pure (.config .root :: tl)
    else if inTyp = typApp then do
      let tl ← c.bindArgs a rest
      pure (.app :: tl)
    else .error (.fatal (c.acceptMsg a))

/-- Dispatch of a command action (lines 97-133 of `command.go`). -/
def Command.dispatch (c : Command) (a : App) : Except Failure (List Injected) :=
  checkAction c.Action (c.bindArgs a)

/-- The value an action returns, as `Run` inspects it through reflection. -/
inductive ActionResult
  /-- A nil interface or a nil pointer: `Elem()` is not valid. -/
  | nilValue
  /-- The result type is an interface and holds a value whose `Error()`
  gives `msg`. -/
  | held (msg : String)
  /-- The result type is a pointer type and the result is not nil; whether
  the pointee type itself implements `error`, and what its `Error()` gives. -/
  | pointee (implementsError : Bool) (msg : String)
  /-- The result type is neither an interface nor a pointer type. -/
  | otherKind
  deriving DecidableEq, Repr

/-- The end of both `Run` functions (`ret[0].Elem()`, `IsValid`, then
`Interface().(error)`): a nil result is no error; the value held by a result
of interface type is an error and is fatal; the pointee of a result of
pointer type is asserted to be an error, which panics unless the pointee
type has the method itself; `Elem` panics on a result of any other kind. -/
def afterCall (res : ActionResult) : Except Failure Unit :=
  match res with
  | .nilValue => .ok ()
  | .held msg => .error (.fatal msg)
  | .pointee true msg => .error (.fatal msg)
  | .pointee false _ => .error (.crash "interface conversion: missing method Error")
  | .otherKind => .error (.crash "reflect: call of reflect.Value.Elem on a value that is neither interface nor pointer")

/-! ## The two pipelines -/

/-- Outcome of reading and decoding the configuration file in
`App.tryConfig`. -/
inductive ConfigRead
  /-- The file could not be read (`ioutil.ReadFile` failed). -/
  | unreadable
  /-- Failure of `yaml.Unmarshal`, which has left in the map the entries it
  decoded before the error (the nil map when there are none). -/
  | malformed (decoded : Option Segment)
  /-- The decoded document (the nil map for an empty document). -/
  | document (doc : Option Segment)

/-- What a run reads from outside: the outcome of reading the configuration
file, `os.Args` as the engine reads it, the positional arguments of that
parse as the engine reads them in `Command.Run`, the answers on standard
input, and the value the action returns when it is called. -/
structure Env where
  file : ConfigRead
  argv : CmdLine
  argv2 : CmdLine
  stdin : List String
  actionResult : ActionResult

/-- The cells of the record a `Config` value points to. -/
def cellsOf : Option Config → List Cell
  | none => []
  | some c => c.members.map Prod.snd

/-- Counterpart of `App.tryConfig` in `app.go`. When the file cannot be read
`a.configFile` is left as it is; when `yaml.Unmarshal` fails the entries
decoded so far stay in `a.configFile` and nothing is merged. -/
def App.tryConfig (a : App) (file : ConfigRead) (h : Heap) : Except Failure (App × Heap) :=
  match file with
  | .unreadable => .ok (a, h)
  | .malformed decoded => .ok ({ a with configFile := decoded }, h)
  | .document doc => do
    let h' ← mergeSegment doc a.fields h
    pure ({ a with configFile := doc }, h')

/-- Lines 153-155 of `App.Run`: the help option, unless disabled. -/
def App.helpFlag (a : App) (flags : FlagSet) : Except Failure FlagSet :=
  if !a.DisableHelp then flags.VarLong .help "help" 104 "print usage information"
  else .ok flags

/-- Lines 157-159 of `App.Run`: the version option, unless disabled. -/
def App.versionFlag (a : App) (flags : FlagSet) : Except Failure FlagSet :=
  if !a.DisableVersion then flags.VarLong .version "version" 118 "print version information"
  else .ok flags

/-- Lines 147-170 of `App.Run`: a fresh flag set with the help and version
options, the field list, its flags, the configuration merge, then the parse
of the command line. -/
def App.setup (a : App) (file : ConfigRead) (argv : CmdLine) (h : Heap) :
    Except Failure (App × Heap) := do
  let flags1 ← a.helpFlag FlagSet.New
  let flags2 ← a.versionFlag flags1
  let fields ← parseFields .root a.Config
  let flags3 ← addToFlags fields h flags2
  let r ← ({ a with flags := flags3, fields := fields } : App).tryConfig file h
  let p ← r.1.flags.Parse argv r.2
  pure ({ r.1 with flags := p.1 }, p.2)

/-- Counterpart of `Command.tryConfig` in `command.go`; `fields` is
`c.fields` and `a` is `c.app`. -/
def Command.tryConfig (c : Command) (a : App) (fields : List field) (h : Heap) : Except Failure Heap :=
  match mapIndex a.configFile (toLower c.Name) with
  | some (.map segment) => mergeSegment (some segment) fields h
  | _ => .ok h

/-- Lines 74-83 of `Command.Run`: the command's field list, its flags added
to the application's set, the merge of the command's segment, then the parse
of the remaining arguments. Returns the application, `c.fields` and the heap. -/
def Command.setup (c : Command) (a : App) (argv2 : CmdLine) (h : Heap) :
    Except Failure (App × List field × Heap) := do
  let fields ← parseFields .cmd c.Config
  let flags ← addToFlags fields h a.flags
  let h1 ← c.tryConfig { a with flags := flags } fields h
  let p ← flags.Parse argv2 h1
  pure ({ a with flags := p.1 }, fields, p.2)

/-- Model of `Value().String()` of an option, through the cell it is bound to. -/
def cellString : Option Cell → String
  | some (.bool true) => "true"
  | some (.bool false) => "false"
  | some (.string s) => s
  | some (.int i) => toString i
  | some (.uint n) => toString n
  | some (.stringSlice xs) => ",".intercalate xs
  | _ => ""

/-- Lines 91-95 of `Command.Run`: the segment handed to the second
`promptForMissing`; the assertion panics on a value that is not a map. -/
def Command.segment (c : Command) (a : App) : Except Failure (Option Segment) :=
  match mapIndex a.configFile (toLower c.Name) with
  | none => .ok none
  | some (.map segment) => .ok (some segment)
  | some _ => .error (.crash "interface conversion: interface {} is not map[interface {}]interface {}")

/-- Counterpart of `Command.Run` in `command.go`, with `a` for `c.app`.
Returns the arguments the action was called with and the final cells. -/
def Command.Run (c : Command) (a : App) (env : Env) (h : Heap) (con : Console) :
    Except Failure (List Injected × Heap × Console) := do
  let r ← c.setup a env.argv2 { h with cmd := cellsOf c.Config }
  match r.1.flags.Lookup "help" with
  | none => .error (.crash "invalid memory address or nil pointer dereference")
  | some opt =>
    if cellString (r.2.2.read opt.value) == "true" then .error .exit0
    else do
      let st1 ← promptForMissing r.1.configFile r.1.flags r.1.fields (r.2.2, con)
      let segment ← c.segment r.1
      let st2 ← promptForMissing segment r.1.flags r.2.1 st1
      let args ← c.dispatch r.1
      afterCall env.actionResult
      pure (args, st2)

/-- Counterpart of `App.Run` in `app.go` (the default for an empty `Name`
only changes the usage text and is left out). Returns the arguments the
action was called with and the final cells. -/
def App.Run (a : App) (env : Env) : Except Failure (List Injected × Heap × Console) := do
  let a1 : App := if a.Version == "" then { a with DisableVersion := true } else a
  let commandMap ← registerCommands a1.Commands
  let r ← ({ a1 with commandMap := commandMap } : App).setup env.file env.argv
    { help := false, version := false, root := cellsOf a1.Config, cmd := [] }
  if r.2.version then .error .exit0
  else
    match (match r.1.flags.args with
      | [] => none
      | arg0 :: _ => mapGet r.1.commandMap arg0) with
    | some cmd => cmd.Run r.1 env r.2 { stdin := env.stdin, stdout := [] }
    | none =>
      if r.1.Action.isNone || r.2.help then .error .exit0
      else do
        let st ← promptForMissing r.1.configFile r.1.flags r.1.fields (r.2, { stdin := env.stdin, stdout := [] })
        let args ← r.1.dispatch
        afterCall env.actionResult
        pure (args, st)

/-! ## Definitions used to state the properties -/

/-- The answers `promptBool` takes for true. -/
def yesWords : List String := ["yes", "y", "true", "t"]

/-- The answers `promptBool` takes for false. -/
def noWords : List String := ["no", "n", "false", "f"]

/-- The descriptor the Field Model promises for member `m` at position `i`
of the record at `r`: long name from the `long` tag, else the lower-cased
member name; short name from the first byte of the `short` tag, else 0;
usage text from the `usage` tag, else the member name; prompt eligibility
when the `prompt` tag lower-cases to `yes`. -/
def describe (r : RecId) (i : Nat) (m : StructField) : field :=
  { typ := m
    iface := .member r i
    short :=
      match m.lookupTag "short" with
      | some s =>
        match s.data with
        | c :: _ => leadByte c
        | [] => 0
      | none => 0
    long :=
      match m.lookupTag "long" with
      | some l => l
      | none => toLower m.Name
    usage :=
      match m.lookupTag "usage" with
      | some u => u
      | none => m.Name
    prompt :=
      match m.lookupTag "prompt" with
      | some v => toLower v == "yes"
      | none => false }

/-- The members of the record a `Config` value points to, in declaration
order; none for the nil config. -/
def membersOf : Option Config → List StructField
  | none => []
  | some c => c.members.map Prod.fst

/-- Whether a cell is of one of the five kinds that bind to a flag. -/
def bindable : Option Cell → Bool
  | some (.bool _) => true
  | some (.string _) => true
  | some (.int _) => true
  | some (.uint _) => true
  | some (.stringSlice _) => true
  | _ => false

/-- How the decoded document holds a value of each kind: a boolean as
`bool`, a string as `string`, an integer as `int`, a non-negative integer
for an unsigned cell as `int` as well, a list of strings as `[]interface{}`
of strings. -/
def docValue : Cell → Iface
  | .bool b => .bool b
  | .string s => .string s
  | .int i => .int i
  | .uint n => .int (Int.ofNat n)
  | .stringSlice xs => .slice (xs.map Iface.string)
  | .other t r => .other t r

/-- Whether two cells are of the same kind. -/
def sameKind : Cell → Cell → Bool
  | .bool _, .bool _ => true
  | .string _, .string _ => true
  | .int _, .int _ => true
  | .uint _, .uint _ => true
  | .stringSlice _, .stringSlice _ => true
  | .other t _, .other u _ => t == u
  | _, _ => false

/-- The three conditions under which the Precedence Resolver asks for a
field: its option was not seen by the flag parser (a field without option
has none that was seen), its long name is not a key of the segment (none is,
of the nil segment), and the field is prompt-eligible. -/
def shouldPrompt (segment : Option Segment) (flags : FlagSet) (f : field) : Bool :=
  (match flags.Lookup f.long with
    | some opt => !opt.Seen
    | none => true)
  && (mapIndex segment f.long).isNone && f.prompt

/-- Asks for every field of the list, in order, without any condition. -/
def promptEach : List field → Heap × Console → Except Failure (Heap × Console)
  | [], st => .ok st
  | f :: fs, st => do
    let st' ← promptField f st
    promptEach fs st'

/-- What holds of a flag set and a heap once the occurrences `processed`
have been parsed: options with a long name have pairwise distinct long
names, bound cells are pairwise distinct, the cell of every seen option
holds what the command line gave it, an option that was not seen does not
occur, and every occurrence names an option. -/
structure FlagInv (s : FlagSet) (h : Heap) (processed : List Occurrence) : Prop where
  names : ∀ x ∈ s.options, ∀ y ∈ s.options, x.long = y.long → x.long ≠ "" → x = y
  values : (s.options.map Opt.value).Nodup
  seen : ∀ opt ∈ s.options, 0 < opt.count → h.read opt.value = cmdLineValue processed opt.long
  unseen : ∀ opt ∈ s.options, opt.count = 0 → opt.long ≠ "" →
    cmdLineValue processed opt.long = none
  known : ∀ o ∈ processed, o.name ≠ "" ∧ ∃ opt ∈ s.options, opt.long = o.name

/-- Whether a prompt for a cell of this kind comes to an end on the answers
still to be read: a string or a list takes any answer and the end of input,
a boolean or a number needs an answer that parses. -/
def answerable (c : Option Cell) (stdin : List String) : Bool :=
  match c with
  | some (.bool _) =>
    stdin.any (fun a => decide (toLower a ∈ yesWords) || decide (toLower a ∈ noWords))
  | some (.string _) => true
  | some (.int _) => stdin.any (fun a => (parseInt a).isSome)
  | some (.uint _) => stdin.any (fun a => (parseUint a).isSome)
  | some (.stringSlice _) => true
  | _ => false

end

/-! ## Concrete inputs -/

/-- The case table on ASCII, where `unicode.ToLower` maps `A`..`Z` to `a`..`z`
and fixes every other character; it serves to evaluate runs on inputs
written in ASCII. -/
instance asciiCase : CaseTable := ⟨Char.toLower⟩

/-- An application with a single unsigned member `Count`. -/
def countApp : App :=
  { Name := "prog", Description := "", Version := "",
    Config := some ⟨"main.Config", [(⟨"Count", "", []⟩, .uint 0)]⟩,
    Action := some (.func [⟨"*main.Config"⟩] [⟨⟨"error"⟩, true⟩]),
    Commands := [], DisableHelp := false, DisableVersion := false,
    fields := [], commandMap := [], flags := FlagSet.New, configFile := none }

/-- An application with a single member `Ratio` of type `float64`. -/
def ratioApp : App :=
  { Name := "prog", Description := "", Version := "",
    Config := some ⟨"main.Config", [(⟨"Ratio", "", []⟩, .other "float64" "0")]⟩,
    Action := some (.func [⟨"*main.Config"⟩] [⟨⟨"error"⟩, true⟩]),
    Commands := [], DisableHelp := false, DisableVersion := false,
    fields := [], commandMap := [], flags := FlagSet.New, configFile := none }

/-- An application without record whose command `sync` has no action. -/
def syncApp : App :=
  { Name := "prog", Description := "", Version := "",
    Config := none,
    Action := none,
    Commands := [⟨"sync", "synchronise", none, none, false⟩],
    DisableHelp := false, DisableVersion := false,
    fields := [], commandMap := [], flags := FlagSet.New, configFile := none }

/-- An environment without configuration file, options, arguments or answers. -/
def emptyEnv : Env :=
  { file := .unreadable, argv := ⟨[], []⟩, argv2 := ⟨[], []⟩, stdin := [], actionResult := .nilValue }

/-- A command whose record is a struct of type `main.Config`, a type
without members, and whose action declares two parameters of type
`*main.Config`. -/
def sharedCmd : Command :=
  { Name := "sync", Description := "synchronise",
    Config := some ⟨"main.Config", []⟩,
    Action := some (.func [⟨"*main.Config"⟩, ⟨"*main.Config"⟩] [⟨⟨"error"⟩, true⟩]),
    Hidden := false }

/-- An application whose record is another struct of the same type
`main.Config`, with the command `sharedCmd`. -/
def sharedApp : App :=
  { Name := "prog", Description := "", Version := "",
    Config := some ⟨"main.Config", []⟩,
    Action := none,
    Commands := [sharedCmd], DisableHelp := false, DisableVersion := false,
    fields := [], commandMap := [], flags := FlagSet.New, configFile := none }

/-- An application with a string-list member `Tags` whose compiled-in
default is the single entry `default`. -/
def tagsApp : App :=
  { Name := "prog", Description := "", Version := "",
    Config := some ⟨"main.Config", [(⟨"Tags", "", []⟩, .stringSlice ["default"])]⟩,
    Action := some (.func [⟨"*main.Config"⟩] [⟨⟨"error"⟩, true⟩]),
    Commands := [], DisableHelp := false, DisableVersion := false,
    fields := [], commandMap := [], flags := FlagSet.New, configFile := none }

/-- The cells of `tagsApp` when `Run` starts. -/
def tagsHeap : Heap :=
  { help := false, version := false, root := cellsOf tagsApp.Config, cmd := [] }

/-- A document with two entries for `tags`. -/
def tagsDoc : Segment :=
  [(.string "tags", .slice [.string "doc1", .string "doc2"])]

/-- A command line giving `tags` twice. -/
def tagsArgv : CmdLine :=
  { occs := [⟨"tags", .stringSlice ["a"]⟩, ⟨"tags", .stringSlice ["b", "c"]⟩], rest := [] }

/-- A flag set with the options `host`, `user` and `debug`, not seen, and
`port`, seen once. -/
def fourFlags : FlagSet :=
  { options := [⟨"host", 0, "Host", .member .root 0, 0⟩, ⟨"port", 0, "Port", .member .root 1, 1⟩,
      ⟨"user", 0, "User", .member .root 2, 0⟩, ⟨"debug", 0, "Debug", .member .root 3, 0⟩],
    args := [] }

/-- The descriptors of the promptable members `Host`, `Port` and `User`
and of the member `Debug`, which is not promptable. -/
def fourFields : List field :=
  [describe .root 0 ⟨"Host", "", [("prompt", "yes")]⟩,
   describe .root 1 ⟨"Port", "", [("prompt", "yes")]⟩,
   describe .root 2 ⟨"User", "", [("prompt", "yes")]⟩,
   describe .root 3 ⟨"Debug", "", []⟩]

/-- A segment with the single key `host`. -/
def hostSegment : Segment :=
  [(.string "host", .string "example.org")]

/-- The cells of the members of `fourFields` after a merge of `hostSegment`
and a parse that saw `port`. -/
def fourHeap : Heap :=
  { help := false, version := false,
    root := [.string "example.org", .int 8080, .string "", .bool false], cmd := [] }

/-- A command `scale` whose record has the promptable member `Ratio` of
type `float64`. -/
def scaleCmd : Command :=
  { Name := "scale", Description := "rescale",
    Config := some ⟨"main.ScaleConfig", [(⟨"Ratio", "", [("prompt", "yes")]⟩, .other "float64" "0")]⟩,
    Action := some (.func [typStringSlice] [⟨⟨"error"⟩, true⟩]),
    Hidden := false }

/-- An application whose record has the integer member `Ratio`, with the
command `scaleCmd`. -/
def scaleApp : App :=
  { Name := "prog", Description := "", Version := "",
    Config := some ⟨"main.Config", [(⟨"Ratio", "", []⟩, .int 1)]⟩,
    Action := none,
    Commands := [scaleCmd], DisableHelp := false, DisableVersion := false,
    fields := [], commandMap := [], flags := FlagSet.New, configFile := none }

/-- The flag set of `scaleApp` when `Command.Run` asks for missing values:
the help option and the option of the root member `Ratio`, none seen. -/
def scaleFlags : FlagSet :=
  { options := [⟨"help", 104, "print usage information", .help, 0⟩,
      ⟨"ratio", 0, "Ratio", .member .root 0, 0⟩],
    args := [] }

/-- An application with a single promptable string member `Name`. -/
def nameApp : App :=
  { Name := "prog", Description := "", Version := "",
    Config := some ⟨"main.Config", [(⟨"Name", "", [("prompt", "yes")]⟩, .string "")]⟩,
    Action := some (.func [⟨"*main.Config"⟩] [⟨⟨"error"⟩, true⟩]),
    Commands := [], DisableHelp := false, DisableVersion := false,
    fields := [], commandMap := [], flags := FlagSet.New, configFile := none }

/-! ## Lemmas on heaps, maps, flags and dispatch -/

theorem mapGet_mapSet (m : List (String × Command)) (k k2 : String) (v : Command) :
    mapGet (mapSet m k v) k2 = if k = k2 then some v else mapGet m k2 := by
  unfold mapGet mapSet
  by_cases h : k = k2
  · subst h
    simp
  · simp only [h, if_false]
    rw [List.find?_cons_of_neg _ (by simpa using h), List.find?_filter]
    congr 1
    induction m with
    | nil => rfl
    | cons x xs ih =>
      by_cases hx2 : x.1 = k2
      · have hx : ¬ x.1 = k := fun e => h (e.symm.trans hx2)
        rw [List.find?_cons_of_pos _ (by simpa [hx2] using fun e => h e.symm), List.find?_cons_of_pos _ (by simp [hx2])]
      · rw [List.find?_cons_of_neg _ (by simp [hx2]), List.find?_cons_of_neg _ (by simp [hx2]), ih]

theorem registerLoop_ok (cmds : List Command) (m : List (String × Command))
    (h : ∀ c ∈ cmds, c.Name ≠ "" ∧ c.Description ≠ "") :
    ∃ m2, registerLoop cmds m = .ok m2 ∧
      ∀ k, mapGet m2 k = (cmds.reverse.find? (fun c => c.Name == k)).or (mapGet m k) := by
  induction cmds generalizing m with
  | nil => exact ⟨m, rfl, fun k => by simp⟩
  | cons c cs ih =>
    have hc := h c (List.mem_cons_self _ _)
    obtain ⟨m2, hm2, hget⟩ := ih (mapSet m c.Name c) (fun x hx => h x (List.mem_cons_of_mem _ hx))
    refine ⟨m2, ?_, ?_⟩
    · simp [registerLoop, hc.1, hc.2, hm2]
    · intro k
      rw [hget k, List.reverse_cons, List.find?_append]
      cases hf : cs.reverse.find? (fun c => c.Name == k) with
      | some x => simp
      | none =>
        simp only [Option.none_or, mapGet_mapSet]
        by_cases hk : c.Name = k
        · simp [hk]
        · simp [hk]

theorem registerLoop_fatal (cmds : List Command) (m : List (String × Command))
    (h : ∃ c ∈ cmds, c.Name = "" ∨ c.Description = "") :
    ∃ msg, registerLoop cmds m = .error (.fatal msg) := by
  induction cmds generalizing m with
  | nil =>
    obtain ⟨c, hc, -⟩ := h
    cases hc
  | cons c cs ih =>
    obtain ⟨x, hx, hbad⟩ := h
    by_cases hn : c.Name = ""
    · exact ⟨"Command names cannot be empty", by simp [registerLoop, hn]⟩
    · by_cases hd : c.Description = ""
      · exact ⟨"Command descriptions cannot be empty", by simp [registerLoop, hn, hd]⟩
      · have hx2 : x ∈ cs := by
          rcases List.mem_cons.1 hx with rfl | hx2
          · rcases hbad with hb | hb
            · exact absurd hb hn
            · exact absurd hb hd
          · exact hx2
        obtain ⟨msg, hmsg⟩ := ih (mapSet m c.Name c) ⟨x, hx2, hbad⟩
        exact ⟨msg, by simp [registerLoop, hn, hd, hmsg]⟩

theorem registerCommands_eq (cmds : List Command) :
    registerCommands cmds = registerLoop cmds [] := by
  cases cmds with
  | nil => rfl
  | cons c cs => simp [registerCommands]

theorem Heap.read_write_same (h : Heap) (ref : Ref) (c0 c : Cell)
    (hr : h.read ref = some c0) (hk : sameKind c0 c = true) :
    (h.write ref c).read ref = some c := by
  cases ref with
  | help =>
    simp only [Heap.read, Option.some.injEq] at hr
    subst hr
    cases c <;> simp [sameKind] at hk
    simp [Heap.write, Heap.read]
  | version =>
    simp only [Heap.read, Option.some.injEq] at hr
    subst hr
    cases c <;> simp [sameKind] at hk
    simp [Heap.write, Heap.read]
  | member r i =>
    cases r with
    | root =>
      simp only [Heap.read] at hr
      have hlt : i < h.root.length := by
        by_contra hge
        rw [List.get?_eq_none.2 (by omega)] at hr
        cases hr
      cases c <;> simp [Heap.write, Heap.read, List.getElem?_set, hlt]
    | cmd =>
      simp only [Heap.read] at hr
      have hlt : i < h.cmd.length := by
        by_contra hge
        rw [List.get?_eq_none.2 (by omega)] at hr
        cases hr
      cases c <;> simp [Heap.write, Heap.read, List.getElem?_set, hlt]

theorem Heap.read_write_other (h : Heap) (ref ref2 : Ref) (c : Cell) (hne : ref ≠ ref2) :
    (h.write ref c).read ref2 = h.read ref2 := by
  cases ref with
  | help =>
    cases ref2 with
    | help => exact absurd rfl hne
    | version => cases c <;> rfl
    | member r j => cases r <;> cases c <;> rfl
  | version =>
    cases ref2 with
    | help => cases c <;> rfl
    | version => exact absurd rfl hne
    | member r j => cases r <;> cases c <;> rfl
  | member r i =>
    cases r with
    | root =>
      cases ref2 with
      | help => cases c <;> rfl
      | version => cases c <;> rfl
      | member r2 j =>
        cases r2 with
        | root =>
          have hij : i ≠ j := fun e => hne (by rw [e])
          cases c <;> simp [Heap.write, Heap.read, List.getElem?_set, hij]
        | cmd => cases c <;> rfl
    | cmd =>
      cases ref2 with
      | help => cases c <;> rfl
      | version => cases c <;> rfl
      | member r2 j =>
        cases r2 with
        | root => cases c <;> rfl
        | cmd =>
          have hij : i ≠ j := fun e => hne (by rw [e])
          cases c <;> simp [Heap.write, Heap.read, List.getElem?_set, hij]

theorem assertStrings_strings (xs : List String) :
    assertStrings (xs.map Iface.string) = .ok xs := by
  induction xs with
  | nil => rfl
  | cons x xs ih => simp [assertStrings, ih, bind, Except.bind, pure, Except.pure]

/-- Positive part of the write rule: on a boolean, string, integer or
string-list cell, `field.set` with the document value of that kind succeeds
and the cell then holds that value. -/
theorem field_set_document_value (f : field) (h : Heap) (c0 v : Cell)
    (hr : h.read f.iface = some c0) (hk : sameKind c0 v = true)
    (hb : bindable (some v) = true) (hu : ∀ n, v ≠ .uint n) :
    f.set (docValue v) h = .ok (h.write f.iface v)
      ∧ (h.write f.iface v).read f.iface = some v := by
  refine ⟨?_, Heap.read_write_same h f.iface c0 v hr hk⟩
  unfold field.set
  rw [hr]
  cases c0 <;> cases v <;> simp [sameKind] at hk <;> simp [bindable] at hb
  · simp [docValue]
  · simp [docValue]
  · simp [docValue]
  · exact absurd rfl (hu _)
  · simp [docValue, interfaceToStringSlice, assertStrings_strings, bind, Except.bind, pure,
      Except.pure]

/-- On an unsigned cell `field.set` panics for every non-negative integer of
the document, which is held as an `int`. -/
theorem field_set_uint_document (f : field) (h : Heap) (n m : Nat)
    (hr : h.read f.iface = some (.uint n)) :
    f.set (docValue (.uint m)) h
      = .error (.crash "interface conversion: interface {} is not uint") := by
  unfold field.set
  rw [hr]
  rfl

/-- The heap is changed by `field.set` at most in the cell of the field. -/
theorem field_set_other (f : field) (val : Iface) (h h2 : Heap) (ref : Ref)
    (hs : f.set val h = .ok h2) (hne : f.iface ≠ ref) : h2.read ref = h.read ref := by
  unfold field.set at hs
  split at hs
  · split at hs
    · cases hs
      exact Heap.read_write_other _ _ _ _ hne
    · cases hs
  · split at hs
    · cases hs
      exact Heap.read_write_other _ _ _ _ hne
    · cases hs
  · split at hs
    · cases hs
      exact Heap.read_write_other _ _ _ _ hne
    · cases hs
  · split at hs
    · cases hs
      exact Heap.read_write_other _ _ _ _ hne
    · cases hs
  · cases hx : interfaceToStringSlice val with
    | error e => simp [hx, bind, Except.bind] at hs
    | ok xs =>
      simp only [hx, bind, Except.bind, pure, Except.pure, Except.ok.injEq] at hs
      subst hs
      exact Heap.read_write_other _ _ _ _ hne
  · cases hs
    rfl
  · cases hs
    rfl

/-- The merge changes no cell other than those of the merged fields. -/
theorem mergeSegment_other (segment : Option Segment) (fields : List field) (h h2 : Heap)
    (ref : Ref) (hm : mergeSegment segment fields h = .ok h2)
    (hne : ∀ f ∈ fields, f.iface ≠ ref) : h2.read ref = h.read ref := by
  induction fields generalizing h with
  | nil =>
    simp only [mergeSegment, Except.ok.injEq] at hm
    subst hm
    rfl
  | cons f fs ih =>
    have hf := hne f (List.mem_cons_self _ _)
    have hfs : ∀ g ∈ fs, g.iface ≠ ref := fun g hg => hne g (List.mem_cons_of_mem _ hg)
    unfold mergeSegment at hm
    split at hm
    · rename_i cval _
      cases hs : f.set cval h with
      | error e => simp [hs, bind, Except.bind] at hm
      | ok h1 =>
        simp only [hs, bind, Except.bind] at hm
        rw [ih h1 hm hfs, field_set_other f cval h h1 ref hs hf]
    · exact ih h hm hfs

/-- The merge changes no cell other than those of the fields whose long
name is a key of the segment: a field that is listed but is not a key keeps
its cell. -/
theorem mergeSegment_non_key (segment : Option Segment) (fields : List field) (h h2 : Heap)
    (ref : Ref) (hm : mergeSegment segment fields h = .ok h2)
    (hne : ∀ f ∈ fields, (mapIndex segment f.long).isSome = true → f.iface ≠ ref) :
    h2.read ref = h.read ref := by
  induction fields generalizing h with
  | nil =>
    simp only [mergeSegment, Except.ok.injEq] at hm
    subst hm
    rfl
  | cons f fs ih =>
    have hfs : ∀ g ∈ fs, (mapIndex segment g.long).isSome = true → g.iface ≠ ref :=
      fun g hg => hne g (List.mem_cons_of_mem _ hg)
    unfold mergeSegment at hm
    split at hm
    · rename_i cval hkey
      have hf := hne f (List.mem_cons_self _ _) (by simp [hkey])
      cases hs : f.set cval h with
      | error e => simp [hs, bind, Except.bind] at hm
      | ok h1 =>
        simp only [hs, bind, Except.bind] at hm
        rw [ih h1 hm hfs, field_set_other f cval h h1 ref hs hf]
    · exact ih h hm hfs

theorem promptIntLoop_prints (p : String) (xs out : List String) (i : Int) (con : Console)
    (h : promptIntLoop p xs out = .ok (i, con)) :
    ∃ more, con.stdout = out ++ (p ++ " (number)") :: more := by
  induction xs generalizing out with
  | nil => cases h
  | cons x xs ih =>
    unfold promptIntLoop at h
    split at h
    · obtain ⟨more, hm⟩ := ih _ h
      exact ⟨(p ++ " (number)") :: more, by simp [hm]⟩
    · cases h
      exact ⟨[], rfl⟩

theorem promptUintLoop_prints (p : String) (xs out : List String) (i : Nat) (con : Console)
    (h : promptUintLoop p xs out = .ok (i, con)) :
    ∃ more, con.stdout = out ++ (p ++ " (number)") :: more := by
  induction xs generalizing out with
  | nil => cases h
  | cons x xs ih =>
    unfold promptUintLoop at h
    split at h
    · obtain ⟨more, hm⟩ := ih _ h
      exact ⟨(p ++ " (number)") :: more, by simp [hm]⟩
    · cases h
      exact ⟨[], rfl⟩

theorem promptStringSliceLoop_prints (p : String) (xs out res : List String) :
    ∃ more, (promptStringSliceLoop p xs out res).2.stdout
      = out ++ (p ++ " (enter a blank line when finished)") :: more := by
  induction xs generalizing out res with
  | nil => exact ⟨[], rfl⟩
  | cons x xs ih =>
    unfold promptStringSliceLoop
    split
    · exact ⟨[], rfl⟩
    · obtain ⟨more, hm⟩ := ih (out ++ [p ++ " (enter a blank line when finished)"]) (res ++ [x])
      exact ⟨(p ++ " (enter a blank line when finished)") :: more, by simp [hm]⟩

theorem prompt_prints (p : String) (con : Console) :
    (prompt p con).2.stdout = con.stdout ++ [p] := by
  unfold prompt
  split <;> rfl

theorem promptIntLoop_error (p : String) (xs out : List String) (e : Failure)
    (h : promptIntLoop p xs out = .error e) : e = .blocked := by
  induction xs generalizing out with
  | nil => cases h; rfl
  | cons x xs ih =>
    unfold promptIntLoop at h
    split at h
    · exact ih _ h
    · cases h

theorem promptUintLoop_error (p : String) (xs out : List String) (e : Failure)
    (h : promptUintLoop p xs out = .error e) : e = .blocked := by
  induction xs generalizing out with
  | nil => cases h; rfl
  | cons x xs ih =>
    unfold promptUintLoop at h
    split at h
    · exact ih _ h
    · cases h

theorem promptIntLoop_answerable (p : String) (xs out : List String)
    (h : xs.any (fun a => (parseInt a).isSome) = true) :
    ∃ r, promptIntLoop p xs out = .ok r := by
  induction xs generalizing out with
  | nil => simp at h
  | cons x xs ih =>
    unfold promptIntLoop
    cases hx : parseInt x with
    | some i => exact ⟨_, rfl⟩
    | none =>
      simp only [List.any_cons, hx, Option.isSome_none, Bool.false_or] at h
      exact ih _ h

theorem promptIntLoop_blocked (p : String) (xs out : List String)
    (h : xs.any (fun a => (parseInt a).isSome) = false) :
    promptIntLoop p xs out = .error .blocked := by
  induction xs generalizing out with
  | nil => rfl
  | cons x xs ih =>
    simp only [List.any_cons, Bool.or_eq_false_iff] at h
    unfold promptIntLoop
    cases hx : parseInt x with
    | some i => simp [hx] at h
    | none => exact ih _ h.2

theorem promptUintLoop_answerable (p : String) (xs out : List String)
    (h : xs.any (fun a => (parseUint a).isSome) = true) :
    ∃ r, promptUintLoop p xs out = .ok r := by
  induction xs generalizing out with
  | nil => simp at h
  | cons x xs ih =>
    unfold promptUintLoop
    cases hx : parseUint x with
    | some i => exact ⟨_, rfl⟩
    | none =>
      simp only [List.any_cons, hx, Option.isSome_none, Bool.false_or] at h
      exact ih _ h

theorem promptUintLoop_blocked (p : String) (xs out : List String)
    (h : xs.any (fun a => (parseUint a).isSome) = false) :
    promptUintLoop p xs out = .error .blocked := by
  induction xs generalizing out with
  | nil => rfl
  | cons x xs ih =>
    simp only [List.any_cons, Bool.or_eq_false_iff] at h
    unfold promptUintLoop
    cases hx : parseUint x with
    | some i => simp [hx] at h
    | none => exact ih _ h.2

/-- A member of a kind that does not bind is not registered by `addToFlags`
and is left unchanged by `field.set`. -/
theorem unbound_member_skipped (f : field) (h : Heap) (flags : FlagSet) (val : Iface)
    (hb : bindable (h.read f.iface) = false) :
    addToFlags [f] h flags = .ok flags ∧ f.set val h = .ok h := by
  cases hr : h.read f.iface with
  | none => simp [addToFlags, field.set, hr]
  | some c =>
    cases c <;> simp [hr, bindable] at hb
    simp [addToFlags, field.set, hr]

theorem typeOfConfig_ne_stringSlice (cfg : Option Config) :
    typeOfConfig cfg ≠ some typStringSlice := by
  cases cfg with
  | none => simp [typeOfConfig]
  | some c =>
    simp only [typeOfConfig, typStringSlice, ne_eq, Option.some.injEq, GoType.mk.injEq]
    intro h
    have := congrArg String.data h
    simp at this

theorem root_bindArgs_fatal (a : App) (ins : List GoType)
    (h : ∃ t ∈ ins, t ≠ typStringSlice ∧ some t ≠ typeOfConfig a.Config ∧ t ≠ typApp) :
    ∃ msg, a.bindArgs ins = .error (.fatal msg) := by
  induction ins with
  | nil =>
    obtain ⟨t, ht, -⟩ := h
    cases ht
  | cons t ts ih =>
    by_cases hin : t ≠ typStringSlice ∧ some t ≠ typeOfConfig a.Config ∧ t ≠ typApp
    · obtain ⟨h1, h2, h3⟩ := hin
      unfold App.bindArgs
      rw [if_neg h1, if_neg h2, if_neg h3]
      cases typeOfConfig a.Config with
      | none => exact ⟨_, rfl⟩
      | some _ => exact ⟨_, rfl⟩
    · have hts : ∃ x ∈ ts, x ≠ typStringSlice ∧ some x ≠ typeOfConfig a.Config ∧ x ≠ typApp := by
        obtain ⟨x, hx, hbad⟩ := h
        rcases List.mem_cons.1 hx with rfl | hx2
        · exact absurd hbad hin
        · exact ⟨x, hx2, hbad⟩
      obtain ⟨msg, hmsg⟩ := ih hts
      refine ⟨msg, ?_⟩
      unfold App.bindArgs
      rw [hmsg]
      split
      · rfl
      · split
        · rfl
        · split
          · rfl
          · rename_i n1 n2 n3
            exact absurd ⟨n1, n2, n3⟩ hin

theorem command_bindArgs_fatal (c : Command) (a : App) (ins : List GoType)
    (h : ∃ t ∈ ins, t ≠ typStringSlice ∧ some t ≠ typeOfConfig c.Config
      ∧ some t ≠ typeOfConfig a.Config ∧ t ≠ typApp) :
    c.bindArgs a ins = .error (.fatal (c.acceptMsg a)) := by
  induction ins with
  | nil =>
    obtain ⟨t, ht, -⟩ := h
    cases ht
  | cons t ts ih =>
    by_cases hin : t ≠ typStringSlice ∧ some t ≠ typeOfConfig c.Config
        ∧ some t ≠ typeOfConfig a.Config ∧ t ≠ typApp
    · obtain ⟨h1, h2, h3, h4⟩ := hin
      unfold Command.bindArgs
      rw [if_neg h1, if_neg h2, if_neg h3, if_neg h4]
    · have hts : ∃ x ∈ ts, x ≠ typStringSlice ∧ some x ≠ typeOfConfig c.Config
          ∧ some x ≠ typeOfConfig a.Config ∧ x ≠ typApp := by
        obtain ⟨x, hx, hbad⟩ := h
        rcases List.mem_cons.1 hx with rfl | hx2
        · exact absurd hbad hin
        · exact ⟨x, hx2, hbad⟩
      unfold Command.bindArgs
      rw [ih hts]
      split
      · rfl
      · split
        · rfl
        · split
          · rfl
          · split
            · rfl
            · rfl

/-- Positive part of the dispatch contract: an action value that is not nil
ends in the fatal error path, before any call, when it is not a function,
when its results are not exactly one error-capable value, or when it
declares a parameter outside the injectable set of its context. -/
theorem dispatch_rejects (a : App) (c : Command) :
    (∀ t, checkAction (some (.notFunc t)) a.bindArgs = .error (.fatal "Action must be a function"))
      ∧ (∀ ins outs (bind : List GoType → Except Failure (List Injected)),
          (∀ o, outs = [o] → o.implementsError = false) →
          checkAction (some (.func ins outs)) bind = .error (.fatal "Action must return an error"))
      ∧ (∀ ins o, a.Action = some (.func ins [o]) → o.implementsError = true →
          (∃ t ∈ ins, t ≠ typStringSlice ∧ some t ≠ typeOfConfig a.Config ∧ t ≠ typApp) →
          ∃ msg, a.dispatch = .error (.fatal msg))
      ∧ (∀ ins o, c.Action = some (.func ins [o]) → o.implementsError = true →
          (∃ t ∈ ins, t ≠ typStringSlice ∧ some t ≠ typeOfConfig c.Config
            ∧ some t ≠ typeOfConfig a.Config ∧ t ≠ typApp) →
          c.dispatch a = .error (.fatal (c.acceptMsg a))) := by
  refine ⟨fun _ => rfl, ?_, ?_, ?_⟩
  · intro ins outs bind h
    unfold checkAction
    cases outs with
    | nil => rfl
    | cons o os =>
      cases os with
      | nil => simp [h o rfl]
      | cons o2 os2 => rfl
  · intro ins o ha ho hbad
    obtain ⟨msg, hmsg⟩ := root_bindArgs_fatal a ins hbad
    exact ⟨msg, by simp [App.dispatch, checkAction, ha, ho, hmsg]⟩
  · intro ins o hc ho hbad
    simp [Command.dispatch, checkAction, hc, ho, command_bindArgs_fatal c a ins hbad]

theorem command_bindArgs_ok (c : Command) (a : App) (ins : List GoType)
    (h : ∀ t ∈ ins, t = typStringSlice ∨ some t = typeOfConfig c.Config
      ∨ some t = typeOfConfig a.Config ∨ t = typApp) :
    ∃ args, c.bindArgs a ins = .ok args := by
  induction ins with
  | nil => exact ⟨[], rfl⟩
  | cons t ts ih =>
    obtain ⟨tl, htl⟩ := ih (fun x hx => h x (List.mem_cons_of_mem _ hx))
    have ht := h t (List.mem_cons_self _ _)
    unfold Command.bindArgs
    rw [htl]
    split
    · exact ⟨_, rfl⟩
    · split
      · exact ⟨_, rfl⟩
      · split
        · exact ⟨_, rfl⟩
        · split
          · exact ⟨_, rfl⟩
          · rename_i n1 n2 n3 n4
            rcases ht with e | e | e | e
            · exact absurd e n1
            · exact absurd e n2
            · exact absurd e n3
            · exact absurd e n4

theorem root_bindArgs_ok (a : App) (ins : List GoType)
    (h : ∀ t ∈ ins, t = typStringSlice ∨ some t = typeOfConfig a.Config ∨ t = typApp) :
    ∃ args, a.bindArgs ins = .ok args := by
  induction ins with
  | nil => exact ⟨[], rfl⟩
  | cons t ts ih =>
    obtain ⟨tl, htl⟩ := ih (fun x hx => h x (List.mem_cons_of_mem _ hx))
    have ht := h t (List.mem_cons_self _ _)
    unfold App.bindArgs
    rw [htl]
    split
    · exact ⟨_, rfl⟩
    · split
      · exact ⟨_, rfl⟩
      · split
        · exact ⟨_, rfl⟩
        · rename_i n1 n2 n3
          rcases ht with e | e | e
          · exact absurd e n1
          · exact absurd e n2
          · exact absurd e n3

theorem command_bindArgs_values (c : Command) (a : App) (ins : List GoType) (args : List Injected)
    (h : c.bindArgs a ins = .ok args) :
    List.Forall₂ (fun t v =>
      (t = typStringSlice → v = .args a.flags.args)
      ∧ (some t = typeOfConfig c.Config → v = .config .cmd)
      ∧ (some t = typeOfConfig a.Config → typeOfConfig c.Config ≠ typeOfConfig a.Config →
          v = .config .root)
      ∧ (some t = typeOfConfig a.Config → typeOfConfig c.Config = typeOfConfig a.Config →
          v = .config .cmd)
      ∧ (t = typApp → some t ≠ typeOfConfig c.Config → some t ≠ typeOfConfig a.Config →
          v = .app)) ins args := by
  induction ins generalizing args with
  | nil =>
    simp only [Command.bindArgs, Except.ok.injEq] at h
    subst h
    exact List.Forall₂.nil
  | cons t ts ih =>
    unfold Command.bindArgs at h
    cases htl : c.bindArgs a ts with
    | error e =>
      rw [htl] at h
      split at h
      · cases h
      · split at h
        · cases h
        · split at h
          · cases h
          · split at h
            · cases h
            · cases h
    | ok tl =>
      rw [htl] at h
      have hrec := ih tl htl
      split at h
      · rename_i e1
        cases h
        refine List.Forall₂.cons ⟨fun _ => rfl, ?_, ?_, ?_, ?_⟩ hrec
        · intro e2
          exact absurd (e1 ▸ e2.symm) (typeOfConfig_ne_stringSlice _)
        · intro e2 _
          exact absurd (e1 ▸ e2.symm) (typeOfConfig_ne_stringSlice _)
        · intro e2 _
          exact absurd (e1 ▸ e2.symm) (typeOfConfig_ne_stringSlice _)
        · intro e2
          rw [e1] at e2
          exact absurd e2 (by decide)
      · split at h
        · rename_i n1 e2
          cases h
          refine List.Forall₂.cons ⟨fun e => absurd e n1, fun _ => rfl, ?_, fun _ _ => rfl, ?_⟩ hrec
          · intro e3 hne
            exact absurd (e2.symm.trans e3) hne
          · intro _ n2
            exact absurd e2 n2
        · split at h
          · rename_i n1 n2 e3
            cases h
            refine List.Forall₂.cons ⟨fun e => absurd e n1, fun e => absurd e n2, fun _ _ => rfl,
              ?_, ?_⟩ hrec
            · intro _ heq
              exact absurd (heq ▸ e3) n2
            · intro _ _ n3
              exact absurd e3 n3
          · split at h
            · rename_i n1 n2 n3 e4
              cases h
              exact List.Forall₂.cons ⟨fun e => absurd e n1, fun e => absurd e n2,
                fun e => absurd e n3, fun e => absurd e n3, fun _ _ _ => rfl⟩ hrec
            · cases h

theorem root_bindArgs_values (a : App) (ins : List GoType) (args : List Injected)
    (h : a.bindArgs ins = .ok args) :
    List.Forall₂ (fun t v =>
      (t = typStringSlice → v = .args a.flags.args)
      ∧ (some t = typeOfConfig a.Config → v = .config .root)
      ∧ (t = typApp → some t ≠ typeOfConfig a.Config → v = .app)) ins args := by
  induction ins generalizing args with
  | nil =>
    simp only [App.bindArgs, Except.ok.injEq] at h
    subst h
    exact List.Forall₂.nil
  | cons t ts ih =>
    unfold App.bindArgs at h
    cases htl : a.bindArgs ts with
    | error e =>
      rw [htl] at h
      split at h
      · cases h
      · split at h
        · cases h
        · split at h
          · cases h
          · split at h <;> cases h
    | ok tl =>
      rw [htl] at h
      have hrec := ih tl htl
      split at h
      · rename_i e1
        cases h
        refine List.Forall₂.cons ⟨fun _ => rfl, ?_, ?_⟩ hrec
        · intro e2
          exact absurd (e1 ▸ e2.symm) (typeOfConfig_ne_stringSlice _)
        · intro e2
          rw [e1] at e2
          exact absurd e2 (by decide)
      · split at h
        · rename_i n1 e2
          cases h
          exact List.Forall₂.cons ⟨fun e => absurd e n1, fun _ => rfl, fun _ n2 => absurd e2 n2⟩ hrec
        · split at h
          · rename_i n1 n2 e3
            cases h
            exact List.Forall₂.cons ⟨fun e => absurd e n1, fun e => absurd e n2, fun _ _ => rfl⟩ hrec
          · split at h <;> cases h

/-- C4 (amended). In both contexts the parameter loop succeeds when every
declared parameter type is the type of some injectable, and each parameter
then receives the first injectable of that type in the fixed order:
positional arguments, own record, for a command the root record, the
application. So in a command context a parameter of the command record's
pointer type receives the command record, and a parameter of the root
record's pointer type receives the root record when the two records differ
in type and the command record when they have the same type. -/
theorem bindArgs_first_match (c : Command) (a : App) (ins : List GoType) :
    ((∀ t ∈ ins, t = typStringSlice ∨ some t = typeOfConfig c.Config
        ∨ some t = typeOfConfig a.Config ∨ t = typApp) → ∃ args, c.bindArgs a ins = .ok args)
      ∧ (∀ args, c.bindArgs a ins = .ok args →
          List.Forall₂ (fun t v =>
            (t = typStringSlice → v = .args a.flags.args)
            ∧ (some t = typeOfConfig c.Config → v = .config .cmd)
            ∧ (some t = typeOfConfig a.Config → typeOfConfig c.Config ≠ typeOfConfig a.Config →
                v = .config .root)
            ∧ (some t = typeOfConfig a.Config → typeOfConfig c.Config = typeOfConfig a.Config →
                v = .config .cmd)
            ∧ (t = typApp → some t ≠ typeOfConfig c.Config → some t ≠ typeOfConfig a.Config →
                v = .app)) ins args)
      ∧ ((∀ t ∈ ins, t = typStringSlice ∨ some t = typeOfConfig a.Config ∨ t = typApp) →
          ∃ args, a.bindArgs ins = .ok args)
      ∧ (∀ args, a.bindArgs ins = .ok args →
          List.Forall₂ (fun t v =>
            (t = typStringSlice → v = .args a.flags.args)
            ∧ (some t = typeOfConfig a.Config → v = .config .root)
            ∧ (t = typApp → some t ≠ typeOfConfig a.Config → v = .app)) ins args) :=
  ⟨command_bindArgs_ok c a ins, command_bindArgs_values c a ins,
    root_bindArgs_ok a ins, root_bindArgs_values a ins⟩

theorem cmdLineValue_snoc (p : List Occurrence) (o : Occurrence) (name : String) :
    cmdLineValue (p ++ [o]) name =
      if o.name = name then accumulate (cmdLineValue p name) o.value else cmdLineValue p name := by
  unfold cmdLineValue
  rw [List.foldl_append]
  simp only [List.foldl_cons, List.foldl_nil, beq_iff_eq]

theorem cmdLineValue_absent (p : List Occurrence) (name : String)
    (h : ∀ o ∈ p, o.name ≠ name) : cmdLineValue p name = none := by
  induction p using List.reverseRecOn with
  | nil => rfl
  | append_singleton p o ih =>
    rw [cmdLineValue_snoc, if_neg (h o (by simp))]
    exact ih (fun x hx => h x (by simp [hx]))

theorem FlagSet.Lookup_some (s : FlagSet) (name : String) (opt : Opt)
    (h : s.Lookup name = some opt) : opt ∈ s.options ∧ opt.long = name ∧ name ≠ "" := by
  unfold FlagSet.Lookup at h
  split at h
  · cases h
  · rename_i hne
    exact ⟨List.mem_of_find?_eq_some h, by simpa using List.find?_some h, hne⟩

theorem FlagSet.mem_bump (s : FlagSet) (name : String) (opt2 : Opt) :
    opt2 ∈ (s.bump name).options ↔
      ∃ opt ∈ s.options, opt2 = if opt.long = name then { opt with count := opt.count + 1 } else opt := by
  unfold FlagSet.bump
  simp only [List.mem_map, beq_iff_eq]
  constructor
  · rintro ⟨opt, ho, rfl⟩
    exact ⟨opt, ho, rfl⟩
  · rintro ⟨opt, ho, rfl⟩
    exact ⟨opt, ho, rfl⟩

theorem FlagSet.bump_long (s : FlagSet) (name : String) :
    (s.bump name).options.map Opt.long = s.options.map Opt.long := by
  unfold FlagSet.bump
  simp only [List.map_map]
  apply List.map_congr_left
  intro o _
  simp only [Function.comp]
  split <;> rfl

theorem FlagSet.bump_value (s : FlagSet) (name : String) :
    (s.bump name).options.map Opt.value = s.options.map Opt.value := by
  unfold FlagSet.bump
  simp only [List.map_map]
  apply List.map_congr_left
  intro o _
  simp only [Function.comp]
  split <;> rfl

/-- One processed occurrence: the option is counted and a value of its
kind is written to its cell, which is what the occurrence makes of the
value the cell held if the option was seen before, and of nothing if not. -/
theorem FlagSet.see_ok (s : FlagSet) (h : Heap) (o : Occurrence) (s2 : FlagSet) (h2 : Heap)
    (hs : s.see h o = .ok (s2, h2)) :
    ∃ opt c0 v, s.Lookup o.name = some opt ∧ h.read opt.value = some c0 ∧ sameKind c0 v = true
      ∧ s2 = s.bump o.name ∧ h2 = h.write opt.value v
      ∧ (opt.count = 0 → accumulate none o.value = some v)
      ∧ (0 < opt.count → accumulate (h.read opt.value) o.value = some v) := by
  unfold FlagSet.see at hs
  cases hl : s.Lookup o.name with
  | none => simp [hl] at hs
  | some opt =>
    simp only [hl] at hs
    cases hr : h.read opt.value with
    | none => simp [hr] at hs
    | some c0 =>
      cases c0 <;> cases hv : o.value <;> simp [hr, hv] at hs
      · obtain ⟨rfl, rfl⟩ := hs
        refine ⟨opt, _, _, rfl, hr, ?_, rfl, rfl, ?_, ?_⟩
        · rfl
        · intro _; rfl
        · intro _; rw [hr]; rfl
      · obtain ⟨rfl, rfl⟩ := hs
        refine ⟨opt, _, _, rfl, hr, ?_, rfl, rfl, ?_, ?_⟩
        · rfl
        · intro _; rfl
        · intro _; rw [hr]; rfl
      · obtain ⟨rfl, rfl⟩ := hs
        refine ⟨opt, _, _, rfl, hr, ?_, rfl, rfl, ?_, ?_⟩
        · rfl
        · intro _; rfl
        · intro _; rw [hr]; rfl
      · obtain ⟨rfl, rfl⟩ := hs
        refine ⟨opt, _, _, rfl, hr, ?_, rfl, rfl, ?_, ?_⟩
        · rfl
        · intro _; rfl
        · intro _; rw [hr]; rfl
      · obtain ⟨rfl, rfl⟩ := hs
        refine ⟨opt, _, _, rfl, hr, ?_, rfl, rfl, ?_, ?_⟩
        · rfl
        · intro h0
          simp [h0, accumulate]
        · intro hpos
          have : opt.count ≠ 0 := by omega
          simp [this, hr, accumulate]

theorem see_inv (s : FlagSet) (h : Heap) (p : List Occurrence) (o : Occurrence)
    (s2 : FlagSet) (h2 : Heap) (inv : FlagInv s h p) (hs : s.see h o = .ok (s2, h2)) :
    FlagInv s2 h2 (p ++ [o]) := by
  obtain ⟨opt, c0, v, hl, hr, hk, rfl, rfl, hnew, hold⟩ := FlagSet.see_ok s h o s2 h2 hs
  obtain ⟨hmem, hname, hne⟩ := FlagSet.Lookup_some s o.name opt hl
  have huniq : ∀ x ∈ s.options, x.long = o.name → x = opt := fun x hx hxn =>
    inv.names x hx opt hmem (hxn.trans hname.symm) (hxn ▸ hne)
  have hval : ∀ x ∈ s.options, x ≠ opt → opt.value ≠ x.value := fun x hx hne e =>
    hne (List.inj_on_of_nodup_map inv.values hx hmem e.symm)
  have hwritten : (h.write opt.value v).read opt.value = some v :=
    Heap.read_write_same h opt.value c0 v hr hk
  have hacc : accumulate (cmdLineValue p o.name) o.value = some v := by
    rcases Nat.eq_zero_or_pos opt.count with h0 | hpos
    · have := inv.unseen opt hmem h0 (hname ▸ hne)
      rw [hname] at this
      rw [this]
      exact hnew h0
    · have := inv.seen opt hmem hpos
      rw [hname] at this
      rw [← this]
      exact hold hpos
  have himg : ∀ x : Opt, (if x.long = o.name then { x with count := x.count + 1 } else x).long
      = x.long := by
    intro x
    split <;> rfl
  refine ⟨?_, ?_, ?_, ?_, ?_⟩
  · intro x2 hx2 y2 hy2 hxy hx0
    obtain ⟨x, hx, rfl⟩ := (FlagSet.mem_bump s o.name x2).1 hx2
    obtain ⟨y, hy, rfl⟩ := (FlagSet.mem_bump s o.name y2).1 hy2
    rw [himg x, himg y] at hxy
    rw [himg x] at hx0
    rw [inv.names x hx y hy hxy hx0]
  · rw [FlagSet.bump_value]
    exact inv.values
  · intro x2 hx2 hpos
    obtain ⟨x, hx, rfl⟩ := (FlagSet.mem_bump s o.name x2).1 hx2
    by_cases hxn : x.long = o.name
    · have hxo := huniq x hx hxn
      subst hxo
      simp only [hxn, if_true]
      rw [cmdLineValue_snoc, if_pos rfl, hacc]
      exact hwritten
    · simp only [hxn, if_false] at hpos ⊢
      have hne2 : x ≠ opt := fun e => hxn (e ▸ hname)
      rw [Heap.read_write_other h opt.value x.value v (hval x hx hne2), cmdLineValue_snoc,
        if_neg (fun e => hxn e.symm)]
      exact inv.seen x hx hpos
  · intro x2 hx2 h0 hx0
    obtain ⟨x, hx, rfl⟩ := (FlagSet.mem_bump s o.name x2).1 hx2
    by_cases hxn : x.long = o.name
    · simp [hxn] at h0
    · simp only [hxn, if_false] at h0 hx0 ⊢
      rw [cmdLineValue_snoc, if_neg (fun e => hxn e.symm)]
      exact inv.unseen x hx h0 hx0
  · intro o2 ho2
    have hlong : ∀ x ∈ s.options, ∃ y ∈ (s.bump o.name).options, y.long = x.long := by
      intro x hx
      exact ⟨_, (FlagSet.mem_bump s o.name _).2 ⟨x, hx, rfl⟩, himg x⟩
    rcases List.mem_append.1 ho2 with hin | hin
    · obtain ⟨hn0, x, hx, hxn⟩ := inv.known o2 hin
      obtain ⟨y, hy, hyn⟩ := hlong x hx
      exact ⟨hn0, y, hy, hyn.trans hxn⟩
    · simp only [List.mem_singleton] at hin
      subst hin
      obtain ⟨y, hy, hyn⟩ := hlong opt hmem
      exact ⟨hne, y, hy, hyn.trans hname⟩

theorem FlagSet.bump_pairs (s : FlagSet) (name : String) :
    (s.bump name).options.map (fun o => (o.long, o.value))
      = s.options.map (fun o => (o.long, o.value)) := by
  unfold FlagSet.bump
  simp only [List.map_map]
  apply List.map_congr_left
  intro o _
  simp only [Function.comp]
  split <;> rfl

theorem seeAll_inv (os : List Occurrence) (s : FlagSet) (h : Heap) (p : List Occurrence)
    (s2 : FlagSet) (h2 : Heap) (inv : FlagInv s h p)
    (hs : FlagSet.seeAll os (s, h) = .ok (s2, h2)) :
    FlagInv s2 h2 (p ++ os)
      ∧ s2.options.map (fun o => (o.long, o.value)) = s.options.map (fun o => (o.long, o.value)) := by
  induction os generalizing s h p with
  | nil =>
    simp only [FlagSet.seeAll, Except.ok.injEq, Prod.mk.injEq] at hs
    obtain ⟨rfl, rfl⟩ := hs
    simpa using inv
  | cons o os ih =>
    unfold FlagSet.seeAll at hs
    cases h1 : s.see h o with
    | error e => simp [h1, bind, Except.bind] at hs
    | ok st =>
      obtain ⟨s1, hp1⟩ := st
      simp only [h1, bind, Except.bind] at hs
      have inv1 := see_inv s h p o s1 hp1 inv h1
      obtain ⟨r1, r2⟩ := ih s1 hp1 (p ++ [o]) inv1 hs
      obtain ⟨opt, c0, v, -, -, -, hb, -, -, -⟩ := FlagSet.see_ok s h o s1 hp1 h1
      refine ⟨by simpa using r1, ?_⟩
      rw [r2, hb, FlagSet.bump_pairs]

theorem Parse_inv (s : FlagSet) (argv : CmdLine) (h : Heap) (p : List Occurrence)
    (s2 : FlagSet) (h2 : Heap) (inv : FlagInv s h p) (hs : s.Parse argv h = .ok (s2, h2)) :
    FlagInv s2 h2 (p ++ argv.occs)
      ∧ s2.options.map (fun o => (o.long, o.value)) = s.options.map (fun o => (o.long, o.value)) := by
  unfold FlagSet.Parse at hs
  cases h1 : FlagSet.seeAll argv.occs (s, h) with
  | error e => simp [h1, bind, Except.bind] at hs
  | ok st =>
    obtain ⟨s1, hp1⟩ := st
    simp only [h1, bind, Except.bind, pure, Except.pure, Except.ok.injEq, Prod.mk.injEq] at hs
    obtain ⟨rfl, rfl⟩ := hs
    obtain ⟨r1, r2⟩ := seeAll_inv argv.occs s h p s1 hp1 inv h1
    exact ⟨⟨r1.names, r1.values, r1.seen, r1.unseen, r1.known⟩, r2⟩

/-- Options keep their names and cells through a parse. -/
theorem pairs_mem (s s2 : FlagSet)
    (hp : s2.options.map (fun o => (o.long, o.value)) = s.options.map (fun o => (o.long, o.value)))
    (opt : Opt) (ho : opt ∈ s.options) :
    ∃ opt2 ∈ s2.options, opt2.long = opt.long ∧ opt2.value = opt.value := by
  have : (opt.long, opt.value) ∈ s2.options.map (fun o => (o.long, o.value)) := by
    rw [hp]
    exact List.mem_map.2 ⟨opt, ho, rfl⟩
  obtain ⟨opt2, ho2, he⟩ := List.mem_map.1 this
  simp only [Prod.mk.injEq] at he
  exact ⟨opt2, ho2, he.1, he.2⟩

theorem VarLong_inv (s : FlagSet) (h : Heap) (p : List Occurrence) (ref : Ref)
    (name : String) (short : Nat) (usage : String) (s2 : FlagSet) (inv : FlagInv s h p)
    (hfresh : ref ∉ s.options.map Opt.value) (hv : s.VarLong ref name short usage = .ok s2) :
    FlagInv s2 h p ∧ s2.options = s.options ++ [⟨name, short, usage, ref, 0⟩] := by
  unfold FlagSet.VarLong at hv
  split at hv
  · cases hv
  split at hv
  · cases hv
  · rename_i hany
    simp only [Except.ok.injEq] at hv
    subst hv
    have hname : name ≠ "" → name ∉ s.options.map Opt.long := by
      intro hne hin
      obtain ⟨x, hx, hxn⟩ := List.mem_map.1 hin
      apply hany
      rw [List.any_eq_true]
      exact ⟨x, hx, by simp [hxn, hne]⟩
    have habsent : name ≠ "" → cmdLineValue p name = none := by
      intro hne
      apply cmdLineValue_absent
      intro o ho hon
      obtain ⟨-, x, hx, hxn⟩ := inv.known o ho
      exact hname hne (List.mem_map.2 ⟨x, hx, hxn.trans hon⟩)
    refine ⟨⟨?_, ?_, ?_, ?_, ?_⟩, rfl⟩
    · intro x hx y hy hxy hx0
      rcases List.mem_append.1 hx with hx1 | hx1
      · rcases List.mem_append.1 hy with hy1 | hy1
        · exact inv.names x hx1 y hy1 hxy hx0
        · simp only [List.mem_singleton] at hy1
          subst hy1
          simp only at hxy
          exact absurd (List.mem_map.2 ⟨x, hx1, hxy⟩) (hname (hxy ▸ hx0))
      · simp only [List.mem_singleton] at hx1
        subst hx1
        rcases List.mem_append.1 hy with hy1 | hy1
        · simp only at hxy hx0
          exact absurd (List.mem_map.2 ⟨y, hy1, hxy.symm⟩) (hname hx0)
        · simp only [List.mem_singleton] at hy1
          exact hy1.symm
    · simp only [List.map_append, List.map_cons, List.map_nil]
      rw [List.nodup_append]
      refine ⟨inv.values, List.nodup_singleton _, ?_⟩
      intro a ha hb
      simp only [List.mem_singleton] at hb
      exact hfresh (hb ▸ ha)
    · intro x hx hpos
      rcases List.mem_append.1 hx with hin | hin
      · exact inv.seen x hin hpos
      · simp only [List.mem_singleton] at hin
        subst hin
        simp at hpos
    · intro x hx h0 hx0
      rcases List.mem_append.1 hx with hin | hin
      · exact inv.unseen x hin h0 hx0
      · simp only [List.mem_singleton] at hin
        subst hin
        exact habsent hx0
    · intro o ho
      obtain ⟨hn0, x, hx, hxn⟩ := inv.known o ho
      exact ⟨hn0, x, List.mem_append_left _ hx, hxn⟩

theorem addToFlags_cons (f : field) (fs : List field) (h : Heap) (flags : FlagSet) :
    addToFlags (f :: fs) h flags =
      if bindable (h.read f.iface) = true then
        (flags.VarLong f.iface f.long f.short f.usage).bind (addToFlags fs h)
      else addToFlags fs h flags := by
  cases hr : h.read f.iface with
  | none => simp [addToFlags, hr, bindable]
  | some c => cases c <;> simp [addToFlags, hr, bindable, bind]

/-- Registration of a field list whose cells are pairwise distinct and not
yet bound: the invariant is kept, the options already present stay, every
field of one of the five kinds has its option, and every new option is bound
to the cell of one of the fields. -/
theorem addToFlags_inv (fs : List field) (h : Heap) (p : List Occurrence) (s s2 : FlagSet)
    (inv : FlagInv s h p) (hnd : (fs.map field.iface).Nodup)
    (hfresh : ∀ f ∈ fs, f.iface ∉ s.options.map Opt.value)
    (ha : addToFlags fs h s = .ok s2) :
    FlagInv s2 h p
      ∧ (∀ opt ∈ s.options, opt ∈ s2.options)
      ∧ (∀ f ∈ fs, bindable (h.read f.iface) = true →
          ∃ opt ∈ s2.options, opt.long = f.long ∧ opt.value = f.iface)
      ∧ (∀ opt ∈ s2.options, opt ∈ s.options ∨ (opt.count = 0 ∧ ∃ f ∈ fs, opt.value = f.iface)) := by
  induction fs generalizing s with
  | nil =>
    simp only [addToFlags, Except.ok.injEq] at ha
    subst ha
    exact ⟨inv, fun _ ho => ho, fun f hf => absurd hf (List.not_mem_nil f), fun _ ho => Or.inl ho⟩
  | cons f fs ih =>
    rw [addToFlags_cons] at ha
    have hnd2 : (fs.map field.iface).Nodup := (List.nodup_cons.1 (by simpa using hnd)).2
    have hfnot : f.iface ∉ fs.map field.iface := (List.nodup_cons.1 (by simpa using hnd)).1
    by_cases hb : bindable (h.read f.iface) = true
    · rw [if_pos hb] at ha
      cases hv : s.VarLong f.iface f.long f.short f.usage with
      | error e => simp [hv, Except.bind] at ha
      | ok s1 =>
        simp only [hv, Except.bind] at ha
        obtain ⟨inv1, hopts⟩ :=
          VarLong_inv s h p f.iface f.long f.short f.usage s1 inv
            (hfresh f (List.mem_cons_self _ _)) hv
        have hfresh1 : ∀ g ∈ fs, g.iface ∉ s1.options.map Opt.value := by
          intro g hg hin
          rw [hopts] at hin
          simp only [List.map_append, List.map_cons, List.map_nil, List.mem_append,
            List.mem_singleton] at hin
          rcases hin with hin | hin
          · exact hfresh g (List.mem_cons_of_mem _ hg) hin
          · exact hfnot (hin ▸ List.mem_map.2 ⟨g, hg, rfl⟩)
        obtain ⟨r1, r2, r3, r4⟩ := ih s1 inv1 hnd2 hfresh1 ha
        refine ⟨r1, ?_, ?_, ?_⟩
        · intro opt ho
          exact r2 opt (by rw [hopts]; exact List.mem_append_left _ ho)
        · intro g hg hgb
          rcases List.mem_cons.1 hg with rfl | hg2
          · exact ⟨⟨g.long, g.short, g.usage, g.iface, 0⟩, r2 _ (by rw [hopts]; simp), rfl, rfl⟩
          · exact r3 g hg2 hgb
        · intro opt ho
          rcases r4 opt ho with hin | ⟨hc, g, hg, hgv⟩
          · rw [hopts] at hin
            rcases List.mem_append.1 hin with hin | hin
            · exact Or.inl hin
            · simp only [List.mem_singleton] at hin
              subst hin
              exact Or.inr ⟨rfl, f, List.mem_cons_self _ _, rfl⟩
          · exact Or.inr ⟨hc, g, List.mem_cons_of_mem _ hg, hgv⟩
    · rw [if_neg hb] at ha
      obtain ⟨r1, r2, r3, r4⟩ :=
        ih s inv hnd2 (fun g hg => hfresh g (List.mem_cons_of_mem _ hg)) ha
      refine ⟨r1, r2, ?_, ?_⟩
      · intro g hg hgb
        rcases List.mem_cons.1 hg with rfl | hg2
        · exact absurd hgb hb
        · exact r3 g hg2 hgb
      · intro opt ho
        rcases r4 opt ho with hin | ⟨hc, g, hg, hgv⟩
        · exact Or.inl hin
        · exact Or.inr ⟨hc, g, List.mem_cons_of_mem _ hg, hgv⟩

theorem FlagInv.heap_change (s : FlagSet) (h h2 : Heap) (p : List Occurrence)
    (inv : FlagInv s h p)
    (hsame : ∀ opt ∈ s.options, 0 < opt.count → h2.read opt.value = h.read opt.value) :
    FlagInv s h2 p :=
  ⟨inv.names, inv.values, fun opt ho hpos => (hsame opt ho hpos).trans (inv.seen opt ho hpos),
    inv.unseen, inv.known⟩

theorem App.tryConfig_ok (a : App) (file : ConfigRead) (h : Heap) (r : App × Heap)
    (ht : a.tryConfig file h = .ok r) : r.1.flags = a.flags ∧ r.1.fields = a.fields := by
  unfold App.tryConfig at ht
  cases file with
  | unreadable =>
    simp only [Except.ok.injEq] at ht
    subst ht
    exact ⟨rfl, rfl⟩
  | malformed decoded =>
    simp only [Except.ok.injEq] at ht
    subst ht
    exact ⟨rfl, rfl⟩
  | document doc =>
    simp only at ht
    cases hm : mergeSegment doc a.fields h with
    | error e => simp [hm, bind, Except.bind] at ht
    | ok h1 =>
      simp only [hm, bind, Except.bind, pure, Except.pure, Except.ok.injEq] at ht
      subst ht
      exact ⟨rfl, rfl⟩

/-- Under the invariant, the cell of a field whose option was seen holds
what the command line gave to that option. -/
theorem FlagInv.seen_field (s : FlagSet) (h : Heap) (p : List Occurrence) (f : field)
    (inv : FlagInv s h p)
    (hreg : ∃ opt ∈ s.options, opt.long = f.long ∧ opt.value = f.iface)
    (opt : Opt) (hl : s.Lookup f.long = some opt) (hseen : opt.Seen = true) :
    h.read f.iface = cmdLineValue p f.long := by
  obtain ⟨hmem, hname, hne⟩ := FlagSet.Lookup_some s f.long opt hl
  obtain ⟨opt2, ho2, hl2, hv2⟩ := hreg
  have heq : opt2 = opt := inv.names opt2 ho2 opt hmem (hl2.trans hname.symm) (hl2 ▸ hne)
  subst heq
  have hpos : 0 < opt2.count := by simpa [Opt.Seen] using hseen
  rw [← hv2, ← hl2]
  exact inv.seen opt2 hmem hpos

theorem Heap.read_with_cmd (h : Heap) (cells : List Cell) (ref : Ref)
    (hne : ∀ i, ref ≠ .member .cmd i) : ({ h with cmd := cells } : Heap).read ref = h.read ref := by
  cases ref with
  | help => rfl
  | version => rfl
  | member r i =>
    cases r with
    | root => rfl
    | cmd => exact absurd rfl (hne i)

section

variable [CaseTable]

/-! ## Properties of the model, for every case table -/

theorem toLower_eq_empty (s : String) : toLower s = "" ↔ s = "" := by
  cases s with
  | mk d =>
    simp [toLower, String.ext_iff]

theorem promptBoolLoop_cons (p a : String) (rest out : List String) :
    promptBoolLoop p (a :: rest) out =
      if toLower a ∈ yesWords then
        .ok (true, { stdin := rest, stdout := out ++ [p ++ " (yes/no)"] })
      else if toLower a ∈ noWords then
        .ok (false, { stdin := rest, stdout := out ++ [p ++ " (yes/no)"] })
      else promptBoolLoop p rest (out ++ [p ++ " (yes/no)"]) := by
  rw [promptBoolLoop]
  simp [yesWords, noWords, or_assoc]

theorem promptBoolLoop_skip (p : String) (pre xs out : List String)
    (hpre : ∀ x ∈ pre, toLower x ∉ yesWords ∧ toLower x ∉ noWords) :
    promptBoolLoop p (pre ++ xs) out
      = promptBoolLoop p xs (out ++ List.replicate pre.length (p ++ " (yes/no)")) := by
  induction pre generalizing out with
  | nil => simp
  | cons x pre ih =>
    have hx := hpre x (List.mem_cons_self _ _)
    have hrest : ∀ y ∈ pre, toLower y ∉ yesWords ∧ toLower y ∉ noWords :=
      fun y hy => hpre y (List.mem_cons_of_mem _ hy)
    rw [List.cons_append, promptBoolLoop_cons, if_neg hx.1, if_neg hx.2, ih _ hrest]
    simp [List.replicate_succ, List.append_assoc]

theorem promptBoolLoop_blocked (p : String) (xs out : List String)
    (h : ∀ x ∈ xs, toLower x ∉ yesWords ∧ toLower x ∉ noWords) :
    promptBoolLoop p xs out = .error .blocked := by
  have := promptBoolLoop_skip p xs [] out (by simpa using h)
  simpa [promptBoolLoop] using this

/-- C9. For answers `pre ++ a :: post` where no answer of `pre` lower-cases
to an accepted word and `a` does, `promptBool` returns true when `a`
lower-cases to yes/y/true/t and false when it lower-cases to no/n/false/f,
has consumed exactly `pre` and `a`, and has printed one prompt per consumed
answer; answers without any accepted word never yield a value. -/
theorem promptBool_first_accepted (p : String) (pre post out : List String) (a : String)
    (hpre : ∀ x ∈ pre, toLower x ∉ yesWords ∧ toLower x ∉ noWords)
    (ha : toLower a ∈ yesWords ∨ toLower a ∈ noWords) :
    promptBool p { stdin := pre ++ a :: post, stdout := out }
        = .ok (decide (toLower a ∈ yesWords),
            { stdin := post, stdout := out ++ List.replicate (pre.length + 1) (p ++ " (yes/no)") })
      ∧ (toLower a ∈ noWords → decide (toLower a ∈ yesWords) = false)
      ∧ promptBool p { stdin := pre, stdout := out } = .error .blocked := by
  refine ⟨?_, ?_, ?_⟩
  · unfold promptBool
    simp only
    rw [promptBoolLoop_skip p pre (a :: post) out hpre, promptBoolLoop_cons]
    by_cases hy : toLower a ∈ yesWords
    · simp [hy, List.replicate_succ', List.append_assoc]
    · have hn : toLower a ∈ noWords := ha.resolve_left hy
      simp [hy, hn, List.replicate_succ', List.append_assoc]
  · intro hn
    have hdisj : ∀ w ∈ noWords, w ∉ yesWords := by decide
    simpa using hdisj _ hn
  · exact promptBoolLoop_blocked p pre out hpre

theorem parseField_eq (r : RecId) (i : Nat) (m : StructField) :
    parseField r i m =
      if m.PkgPath ≠ "" then
        .error (.crash "reflect.Value.Interface: cannot return value obtained from unexported field or method")
      else if m.lookupTag "short" = some "" then
        .error (.crash "index out of range [0] with length 0")
      else .ok (describe r i m) := by
  unfold parseField
  by_cases hp : m.PkgPath ≠ ""
  · simp [hp]
  · simp only [hp, if_false]
    unfold fieldShort describe fieldLong fieldUsage promptAllowed
    cases hs : m.lookupTag "short" with
    | none => simp [bind, Except.bind, pure, Except.pure]
    | some s =>
      cases s with
      | mk d =>
        cases d with
        | nil => simp [bind, Except.bind]
        | cons c cs =>
          have : (⟨c :: cs⟩ : String) ≠ "" := by
            intro h
            have := congrArg String.data h
            simp at this
          simp [bind, Except.bind, pure, Except.pure, this]

theorem parseFieldsFrom_ok (r : RecId) (i : Nat) (ms : List StructField) (fs : List field)
    (h : parseFieldsFrom r i ms = .ok fs) :
    fs = (ms.enumFrom i).map (fun p => describe r p.1 p.2) := by
  induction ms generalizing i fs with
  | nil =>
    simp only [parseFieldsFrom, Except.ok.injEq] at h
    subst h
    simp
  | cons m ms ih =>
    unfold parseFieldsFrom at h
    cases hf : parseField r i m with
    | error e => simp [hf, bind, Except.bind] at h
    | ok f =>
      cases hrest : parseFieldsFrom r (i + 1) ms with
      | error e => simp [hf, hrest, bind, Except.bind] at h
      | ok tl =>
        simp only [hf, hrest, bind, Except.bind, pure, Except.pure, Except.ok.injEq] at h
        subst h
        rw [parseField_eq] at hf
        split at hf
        · cases hf
        · split at hf
          · cases hf
          · simp only [Except.ok.injEq] at hf
            simp [List.enumFrom_cons, hf, ih (i + 1) tl hrest]

theorem parseFieldsFrom_total (r : RecId) (i : Nat) (ms : List StructField)
    (hexp : ∀ m ∈ ms, m.PkgPath = "") (hshort : ∀ m ∈ ms, m.lookupTag "short" ≠ some "") :
    parseFieldsFrom r i ms = .ok ((ms.enumFrom i).map (fun p => describe r p.1 p.2)) := by
  induction ms generalizing i with
  | nil => simp [parseFieldsFrom]
  | cons m ms ih =>
    have h1 := hexp m (List.mem_cons_self _ _)
    have h2 := hshort m (List.mem_cons_self _ _)
    unfold parseFieldsFrom
    rw [parseField_eq, if_neg (by simp [h1]), if_neg h2,
      ih (i + 1) (fun x hx => hexp x (List.mem_cons_of_mem _ hx))
        (fun x hx => hshort x (List.mem_cons_of_mem _ hx))]
    simp [bind, Except.bind, pure, Except.pure, List.enumFrom_cons]

/-- Positive part of the Field Model contract: for a record whose members
are all exported and none of whose `short` tags is empty, `parseFields`
returns one descriptor per member, in declaration order, each as `describe`
states it; the nil config yields the empty list. -/
theorem parseFields_describes (r : RecId) (c : Config)
    (hexp : ∀ m ∈ c.members, m.1.PkgPath = "")
    (hshort : ∀ m ∈ c.members, m.1.lookupTag "short" ≠ some "") :
    parseFields r (some c) = .ok (((c.members.map Prod.fst).enumFrom 0).map (fun p => describe r p.1 p.2))
      ∧ parseFields r none = .ok [] := by
  refine ⟨?_, rfl⟩
  unfold parseFields
  apply parseFieldsFrom_total
  · intro m hm
    obtain ⟨x, hx, rfl⟩ := List.mem_map.1 hm
    exact hexp x hx
  · intro m hm
    obtain ⟨x, hx, rfl⟩ := List.mem_map.1 hm
    exact hshort x hx

/-- C6 (amended). Every descriptor `parseFields` returns has as long name
the `long` tag of its member when present, else the lower-cased member name,
in declaration order. So the long name of a descriptor of a named member is
empty exactly when its `long` tag is present and empty, and the long names
are pairwise distinct exactly when these resolved names are. -/
theorem parseFields_long_names (r : RecId) (config : Option Config) (fs : List field)
    (h : parseFields r config = .ok fs) :
    fs.map field.long = (membersOf config).map fieldLong
      ∧ (∀ f ∈ fs, f.typ.Name ≠ "" → (f.long = "" ↔ f.typ.lookupTag "long" = some ""))
      ∧ ((fs.map field.long).Nodup ↔ ((membersOf config).map fieldLong).Nodup) := by
  have key : fs = ((membersOf config).enumFrom 0).map (fun p => describe r p.1 p.2) := by
    cases config with
    | none =>
      simp only [parseFields, Except.ok.injEq] at h
      subst h
      simp [membersOf]
    | some c => exact parseFieldsFrom_ok r 0 _ fs h
  have hlong : fs.map field.long = (membersOf config).map fieldLong := by
    rw [key, List.map_map]
    have : ((fun f => f.long) ∘ fun p : Nat × StructField => describe r p.1 p.2)
        = fieldLong ∘ Prod.snd := by
      funext p
      simp only [Function.comp, describe, fieldLong]
    rw [show field.long = (fun f => f.long) from rfl, this, ← List.map_map, List.enumFrom_map_snd]
  refine ⟨hlong, ?_, ?_⟩
  · intro f hf hname
    rw [key] at hf
    obtain ⟨p, -, rfl⟩ := List.mem_map.1 hf
    simp only [describe] at hname ⊢
    cases hl : p.2.lookupTag "long" with
    | none => simp [toLower_eq_empty, hname]
    | some l => simp [eq_comm]
  · rw [hlong]

/-- C7 (amended). Registration fails, and then fatally and as the outcome of
`App.Run` whatever the environment, exactly when some command has an empty
name or an empty description. Commands sharing a name do not make it fail:
when it succeeds each listed name maps to the last command listed under it,
so every listed command is reachable under its name when the names are
pairwise distinct. -/
theorem registerCommands_fatal_iff (cmds : List Command) :
    ((∃ e, registerCommands cmds = .error e) ↔ ∃ c ∈ cmds, c.Name = "" ∨ c.Description = "")
      ∧ (∀ e, registerCommands cmds = .error e → e.isFatal = true)
      ∧ (∀ (a : App) (env : Env) (e : Failure), a.Commands = cmds →
          registerCommands cmds = .error e → a.Run env = .error e)
      ∧ (∀ m, registerCommands cmds = .ok m →
          ∀ c ∈ cmds, mapGet m c.Name = cmds.reverse.find? (fun x => x.Name == c.Name))
      ∧ (∀ m, registerCommands cmds = .ok m → (cmds.map Command.Name).Nodup →
          ∀ c ∈ cmds, mapGet m c.Name = some c) := by
  have hlast : ∀ m, registerCommands cmds = .ok m →
      ∀ c ∈ cmds, mapGet m c.Name = cmds.reverse.find? (fun x => x.Name == c.Name) := by
    intro m hm c _
    by_cases hbad : ∃ c ∈ cmds, c.Name = "" ∨ c.Description = ""
    · obtain ⟨msg, hmsg⟩ := registerLoop_fatal cmds [] hbad
      rw [registerCommands_eq, hmsg] at hm
      cases hm
    · have hgood : ∀ c ∈ cmds, c.Name ≠ "" ∧ c.Description ≠ "" := by
        intro x hx
        constructor
        · intro h1
          exact hbad ⟨x, hx, Or.inl h1⟩
        · intro h1
          exact hbad ⟨x, hx, Or.inr h1⟩
      obtain ⟨m2, hm2, hget⟩ := registerLoop_ok cmds [] hgood
      rw [registerCommands_eq, hm2] at hm
      cases hm
      rw [hget]
      simp [mapGet]
  refine ⟨⟨?_, ?_⟩, ?_, ?_, hlast, ?_⟩
  · rintro ⟨e, he⟩
    by_contra hbad
    have hgood : ∀ c ∈ cmds, c.Name ≠ "" ∧ c.Description ≠ "" := by
      intro x hx
      constructor
      · intro h1
        exact hbad ⟨x, hx, Or.inl h1⟩
      · intro h1
        exact hbad ⟨x, hx, Or.inr h1⟩
    obtain ⟨m2, hm2, -⟩ := registerLoop_ok cmds [] hgood
    rw [registerCommands_eq, hm2] at he
    cases he
  · intro hbad
    obtain ⟨msg, hmsg⟩ := registerLoop_fatal cmds [] hbad
    exact ⟨_, by rw [registerCommands_eq, hmsg]⟩
  · intro e he
    by_cases hbad : ∃ c ∈ cmds, c.Name = "" ∨ c.Description = ""
    · obtain ⟨msg, hmsg⟩ := registerLoop_fatal cmds [] hbad
      rw [registerCommands_eq, hmsg] at he
      cases he
      rfl
    · have hgood : ∀ c ∈ cmds, c.Name ≠ "" ∧ c.Description ≠ "" := by
        intro x hx
        constructor
        · intro h1
          exact hbad ⟨x, hx, Or.inl h1⟩
        · intro h1
          exact hbad ⟨x, hx, Or.inr h1⟩
      obtain ⟨m2, hm2, -⟩ := registerLoop_ok cmds [] hgood
      rw [registerCommands_eq, hm2] at he
      cases he
  · intro a env e ha he
    have hc : (if a.Version == "" then { a with DisableVersion := true } else a).Commands = cmds := by
      split <;> exact ha
    unfold App.Run
    simp only [hc, he, bind, Except.bind]
  · intro m hm hnd c hc
    rw [hlast m hm c hc]
    have hmem : c ∈ cmds.reverse := List.mem_reverse.2 hc
    cases hf : cmds.reverse.find? (fun x => x.Name == c.Name) with
    | none =>
      have := List.find?_eq_none.1 hf c hmem
      simp at this
    | some x =>
      have hx := List.find?_some hf
      have hxm : x ∈ cmds := List.mem_reverse.1 (List.mem_of_find?_eq_some hf)
      simp only [beq_iff_eq] at hx
      rw [List.inj_on_of_nodup_map hnd hxm hc hx]

theorem promptBoolLoop_prints (p : String) (xs out : List String) (b : Bool) (con : Console)
    (h : promptBoolLoop p xs out = .ok (b, con)) :
    ∃ more, con.stdout = out ++ (p ++ " (yes/no)") :: more := by
  induction xs generalizing out with
  | nil => cases h
  | cons x xs ih =>
    rw [promptBoolLoop_cons] at h
    split at h
    · cases h
      exact ⟨[], rfl⟩
    · split at h
      · cases h
        exact ⟨[], rfl⟩
      · obtain ⟨more, hm⟩ := ih _ h
        exact ⟨(p ++ " (yes/no)") :: more, by simp [hm]⟩

theorem promptBoolLoop_error (p : String) (xs out : List String) (e : Failure)
    (h : promptBoolLoop p xs out = .error e) : e = .blocked := by
  induction xs generalizing out with
  | nil => cases h; rfl
  | cons x xs ih =>
    rw [promptBoolLoop_cons] at h
    split at h
    · cases h
    · split at h
      · cases h
      · exact ih _ h

theorem promptForMissing_cons (segment : Option Segment) (flags : FlagSet) (f : field)
    (fs : List field) (st : Heap × Console) (hreg : (flags.Lookup f.long).isSome = true) :
    promptForMissing segment flags (f :: fs) st =
      if shouldPrompt segment flags f = true then
        (promptField f st).bind (promptForMissing segment flags fs)
      else promptForMissing segment flags fs st := by
  cases hl : flags.Lookup f.long with
  | none => simp [hl] at hreg
  | some opt =>
    simp only [promptForMissing, shouldPrompt, hl]
    by_cases h1 : opt.Seen = true
    · simp [h1]
    · by_cases h2 : (mapIndex segment f.long).isSome = true
      · have : (mapIndex segment f.long).isNone = false := by
          cases hm : mapIndex segment f.long <;> simp_all
        simp [h1, h2, this]
      · have : (mapIndex segment f.long).isNone = true := by
          cases hm : mapIndex segment f.long <;> simp_all
        by_cases h3 : f.prompt = true
        · simp [h1, h2, this, h3, bind]
        · simp [h1, h2, this, h3]

theorem promptBoolLoop_answerable (p : String) (xs out : List String)
    (h : xs.any (fun a => decide (toLower a ∈ yesWords) || decide (toLower a ∈ noWords)) = true) :
    ∃ r, promptBoolLoop p xs out = .ok r := by
  induction xs generalizing out with
  | nil => simp at h
  | cons x xs ih =>
    rw [promptBoolLoop_cons]
    by_cases hy : toLower x ∈ yesWords
    · rw [if_pos hy]
      exact ⟨_, rfl⟩
    · rw [if_neg hy]
      by_cases hn : toLower x ∈ noWords
      · rw [if_pos hn]
        exact ⟨_, rfl⟩
      · rw [if_neg hn]
        simp only [List.any_cons, hy, hn, decide_False, Bool.or_self, Bool.false_or] at h
        exact ih _ h

theorem promptBoolLoop_unanswerable (p : String) (xs out : List String)
    (h : xs.any (fun a => decide (toLower a ∈ yesWords) || decide (toLower a ∈ noWords)) = false) :
    promptBoolLoop p xs out = .error .blocked := by
  apply promptBoolLoop_blocked
  intro x hx
  have := List.any_eq_false.1 h x hx
  simpa using this

/-- Asking for a field of one of the five kinds: when an answer still to be
read is accepted for the kind (any answer, or none, for a string or a list)
the prompt returns and has printed at least one prompt; otherwise it never
returns. A field of another kind is passed over. -/
theorem promptField_answerable (f : field) (st : Heap × Console) :
    (bindable (st.1.read f.iface) = true →
        (answerable (st.1.read f.iface) st.2.stdin = true →
          ∃ st2 lbl more, promptField f st = .ok st2
            ∧ st2.2.stdout = st.2.stdout ++ lbl :: more)
        ∧ (answerable (st.1.read f.iface) st.2.stdin = false →
          promptField f st = .error .blocked))
      ∧ (bindable (st.1.read f.iface) = false → promptField f st = .ok st) := by
  cases hr : st.1.read f.iface with
  | none => simp [bindable, promptField, hr]
  | some c =>
    cases c with
    | bool b =>
      simp only [promptField, hr, bindable, answerable, true_implies, Bool.true_eq_false,
        false_implies, and_true]
      constructor
      · intro ha
        obtain ⟨r, hok⟩ := promptBoolLoop_answerable f.usage st.2.stdin st.2.stdout ha
        obtain ⟨more, hm⟩ := promptBoolLoop_prints f.usage _ _ r.1 r.2 hok
        refine ⟨(st.1.write f.iface (.bool r.1), r.2), _, more, ?_, hm⟩
        simp [promptBool, hok, bind, Except.bind, pure, Except.pure]
      · intro ha
        simp [promptBool, promptBoolLoop_unanswerable f.usage _ _ ha, bind, Except.bind]
    | string s =>
      simp only [promptField, hr, bindable, answerable, true_implies, Bool.true_eq_false,
        false_implies, and_true]
      exact ⟨_, f.usage, [], rfl, by simp [prompt_prints]⟩
    | int i =>
      simp only [promptField, hr, bindable, answerable, true_implies, Bool.true_eq_false,
        false_implies, and_true]
      constructor
      · intro ha
        obtain ⟨r, hok⟩ := promptIntLoop_answerable f.usage st.2.stdin st.2.stdout ha
        obtain ⟨more, hm⟩ := promptIntLoop_prints f.usage _ _ r.1 r.2 hok
        refine ⟨(st.1.write f.iface (.int r.1), r.2), _, more, ?_, hm⟩
        simp [promptInt, hok, bind, Except.bind, pure, Except.pure]
      · intro ha
        simp [promptInt, promptIntLoop_blocked f.usage _ _ ha, bind, Except.bind]
    | uint n =>
      simp only [promptField, hr, bindable, answerable, true_implies, Bool.true_eq_false,
        false_implies, and_true]
      constructor
      · intro ha
        obtain ⟨r, hok⟩ := promptUintLoop_answerable f.usage st.2.stdin st.2.stdout ha
        obtain ⟨more, hm⟩ := promptUintLoop_prints f.usage _ _ r.1 r.2 hok
        refine ⟨(st.1.write f.iface (.uint r.1), r.2), _, more, ?_, hm⟩
        simp [promptUint, hok, bind, Except.bind, pure, Except.pure]
      · intro ha
        simp [promptUint, promptUintLoop_blocked f.usage _ _ ha, bind, Except.bind]
    | stringSlice xs =>
      simp only [promptField, hr, bindable, answerable, true_implies, Bool.true_eq_false,
        false_implies, and_true]
      obtain ⟨more, hm⟩ := promptStringSliceLoop_prints f.usage st.2.stdin st.2.stdout []
      exact ⟨_, _, more, rfl, hm⟩
    | other t r => simp [bindable, promptField, hr]

/-- C2 (amended). For fields whose long name finds a registered option,
`promptForMissing` does exactly what asking for each field that meets the
three conditions (option not seen, long name not a key of the segment,
prompt-eligible) does. A field that fails one of them is passed over with
heap and console unchanged: no prompt, cell unchanged. A field that meets
them is asked for by kind: for one of the five kinds at least one prompt is
printed whenever the prompt returns, and it returns exactly when an answer
still to be read is accepted; a member of any other kind is passed over
without a prompt although the three conditions hold. -/
theorem promptForMissing_prompts_iff (segment : Option Segment) (flags : FlagSet)
    (fields : List field) (hreg : ∀ f ∈ fields, (flags.Lookup f.long).isSome = true) :
    (∀ st, promptForMissing segment flags fields st
        = promptEach (fields.filter (shouldPrompt segment flags)) st)
      ∧ (∀ f ∈ fields, shouldPrompt segment flags f = false →
          ∀ st, promptForMissing segment flags [f] st = .ok st)
      ∧ (∀ f ∈ fields, shouldPrompt segment flags f = true →
          ∀ st, promptForMissing segment flags [f] st = promptField f st)
      ∧ (∀ f ∈ fields, ∀ st, bindable (st.1.read f.iface) = true →
          (answerable (st.1.read f.iface) st.2.stdin = true →
            ∃ st2 lbl more, promptField f st = .ok st2
              ∧ st2.2.stdout = st.2.stdout ++ lbl :: more)
          ∧ (answerable (st.1.read f.iface) st.2.stdin = false →
            promptField f st = .error .blocked))
      ∧ (∀ f ∈ fields, ∀ st, bindable (st.1.read f.iface) = false →
          promptField f st = .ok st) := by
  refine ⟨?_, ?_, ?_, ?_, ?_⟩
  · induction fields with
    | nil => intro st; rfl
    | cons f fs ih =>
      intro st
      have hf := hreg f (List.mem_cons_self _ _)
      have ih2 := ih (fun g hg => hreg g (List.mem_cons_of_mem _ hg))
      rw [promptForMissing_cons segment flags f fs st hf]
      by_cases hs : shouldPrompt segment flags f = true
      · rw [if_pos hs, List.filter_cons_of_pos hs]
        unfold promptEach
        cases promptField f st with
        | error e => rfl
        | ok st2 => exact ih2 st2
      · rw [if_neg hs, List.filter_cons_of_neg hs]
        exact ih2 st
  · intro f hf hs st
    rw [promptForMissing_cons segment flags f [] st (hreg f hf)]
    simp [hs, promptForMissing]
  · intro f hf hs st
    rw [promptForMissing_cons segment flags f [] st (hreg f hf)]
    simp only [hs, if_true]
    cases promptField f st with
    | error e => rfl
    | ok st2 => rfl
  · intro f _ st hb
    exact (promptField_answerable f st).1 hb
  · intro f _ st hb
    exact (promptField_answerable f st).2 hb

theorem parseFields_refs (r : RecId) (config : Option Config) (fs : List field)
    (h : parseFields r config = .ok fs) :
    (fs.map field.iface).Nodup ∧ ∀ f ∈ fs, ∃ i, f.iface = .member r i := by
  have key : fs = ((membersOf config).enumFrom 0).map (fun p => describe r p.1 p.2) := by
    cases config with
    | none =>
      simp only [parseFields, Except.ok.injEq] at h
      subst h
      simp [membersOf]
    | some c => exact parseFieldsFrom_ok r 0 _ fs h
  have hmap : fs.map field.iface = (List.range' 0 (membersOf config).length).map (Ref.member r) := by
    rw [key, List.map_map, ← List.enumFrom_map_fst, List.map_map]
    rfl
  constructor
  · rw [hmap]
    apply List.Nodup.map
    · intro i j hij
      cases hij
      rfl
    · exact List.nodup_range' _ _
  · intro f hf
    have : f.iface ∈ fs.map field.iface := List.mem_map.2 ⟨f, hf, rfl⟩
    rw [hmap] at this
    obtain ⟨i, -, hi⟩ := List.mem_map.1 this
    exact ⟨i, hi.symm⟩

theorem root_setup_steps (a : App) (file : ConfigRead) (argv : CmdLine) (h : Heap)
    (a2 : App) (h2 : Heap) (hrun : a.setup file argv h = .ok (a2, h2)) :
    ∃ flags1 flags2 fields flags3 r p,
      a.helpFlag FlagSet.New = .ok flags1
      ∧ a.versionFlag flags1 = .ok flags2
      ∧ parseFields .root a.Config = .ok fields
      ∧ addToFlags fields h flags2 = .ok flags3
      ∧ ({ a with flags := flags3, fields := fields } : App).tryConfig file h = .ok r
      ∧ r.1.flags.Parse argv r.2 = .ok p
      ∧ a2 = { r.1 with flags := p.1 } ∧ h2 = p.2 := by
  unfold App.setup at hrun
  simp only [bind, Except.bind, pure, Except.pure] at hrun
  split at hrun
  · cases hrun
  · rename_i flags1 e1
    split at hrun
    · cases hrun
    · rename_i flags2 e2
      split at hrun
      · cases hrun
      · rename_i fields e3
        split at hrun
        · cases hrun
        · rename_i flags3 e4
          split at hrun
          · cases hrun
          · rename_i r e5
            split at hrun
            · cases hrun
            · rename_i p e6
              simp only [Except.ok.injEq, Prod.mk.injEq] at hrun
              exact ⟨flags1, flags2, fields, flags3, r, p, e1, e2, e3, e4, e5, e6, hrun.1.symm,
                hrun.2.symm⟩

/-- After the root pipeline the invariant holds for the occurrences of the
command line, every root field of one of the five kinds has its option, and
no option is bound to a cell of a command record. -/
theorem root_setup_inv (a : App) (file : ConfigRead) (argv : CmdLine) (h : Heap)
    (a2 : App) (h2 : Heap) (hrun : a.setup file argv h = .ok (a2, h2)) :
    FlagInv a2.flags h2 argv.occs
      ∧ (∀ f ∈ a2.fields, bindable (h.read f.iface) = true →
          ∃ opt ∈ a2.flags.options, opt.long = f.long ∧ opt.value = f.iface)
      ∧ (∀ opt ∈ a2.flags.options, ∀ i, opt.value ≠ .member .cmd i) := by
  obtain ⟨flags1, flags2, fields, flags3, r, p, e1, e2, e3, e4, e5, e6, rfl, rfl⟩ :=
    root_setup_steps a file argv h a2 h2 hrun
  have inv0 : FlagInv FlagSet.New h [] :=
    ⟨fun x ho => absurd ho (List.not_mem_nil x), List.nodup_nil,
      fun x ho => absurd ho (List.not_mem_nil x), fun _ _ _ _ => rfl,
      fun x ho => absurd ho (List.not_mem_nil x)⟩
  have s1 : FlagInv flags1 h [] ∧ ∀ opt ∈ flags1.options, opt.value = .help ∧ opt.count = 0 := by
    unfold App.helpFlag at e1
    split at e1
    · obtain ⟨i1, ho⟩ := VarLong_inv _ h [] _ _ _ _ flags1 inv0 (by simp [FlagSet.New]) e1
      refine ⟨i1, ?_⟩
      intro opt hopt
      rw [ho] at hopt
      simp only [FlagSet.New, List.nil_append, List.mem_singleton] at hopt
      subst hopt
      exact ⟨rfl, rfl⟩
    · cases e1
      exact ⟨inv0, fun x ho => absurd ho (List.not_mem_nil x)⟩
  have s2 : FlagInv flags2 h [] ∧ ∀ opt ∈ flags2.options,
      (opt.value = .help ∨ opt.value = .version) ∧ opt.count = 0 := by
    unfold App.versionFlag at e2
    split at e2
    · have hfresh : Ref.version ∉ flags1.options.map Opt.value := by
        intro hin
        obtain ⟨x, hx, hxv⟩ := List.mem_map.1 hin
        rw [(s1.2 x hx).1] at hxv
        cases hxv
      obtain ⟨i2, ho⟩ := VarLong_inv _ h [] _ _ _ _ flags2 s1.1 hfresh e2
      refine ⟨i2, ?_⟩
      intro opt hopt
      rw [ho] at hopt
      rcases List.mem_append.1 hopt with hin | hin
      · exact ⟨Or.inl (s1.2 opt hin).1, (s1.2 opt hin).2⟩
      · simp only [List.mem_singleton] at hin
        subst hin
        exact ⟨Or.inr rfl, rfl⟩
    · cases e2
      exact ⟨s1.1, fun opt ho => ⟨Or.inl (s1.2 opt ho).1, (s1.2 opt ho).2⟩⟩
  obtain ⟨hnd, hroot⟩ := parseFields_refs .root a.Config fields e3
  have hfresh : ∀ f ∈ fields, f.iface ∉ flags2.options.map Opt.value := by
    intro f hf hin
    obtain ⟨x, hx, hxv⟩ := List.mem_map.1 hin
    obtain ⟨i, hi⟩ := hroot f hf
    rw [hi] at hxv
    rcases (s2.2 x hx).1 with hv | hv <;> rw [hv] at hxv <;> cases hxv
  obtain ⟨inv3, -, hreg, hnew⟩ := addToFlags_inv fields h [] flags2 flags3 s2.1 hnd hfresh e4
  have hcount : ∀ opt ∈ flags3.options, opt.count = 0 := by
    intro opt ho
    rcases hnew opt ho with hin | ⟨hc, -⟩
    · exact (s2.2 opt hin).2
    · exact hc
  have hnocmd3 : ∀ opt ∈ flags3.options, ∀ i, opt.value ≠ .member .cmd i := by
    intro opt ho i hv
    rcases hnew opt ho with hin | ⟨-, f, hf, hfv⟩
    · rcases (s2.2 opt hin).1 with hx | hx <;> rw [hx] at hv <;> cases hv
    · obtain ⟨j, hj⟩ := hroot f hf
      rw [hfv, hj] at hv
      cases hv
  obtain ⟨hrf, hrfields⟩ := App.tryConfig_ok _ file h r e5
  simp only at hrf hrfields
  have inv4 : FlagInv r.1.flags r.2 [] := by
    rw [hrf]
    exact FlagInv.heap_change flags3 h r.2 [] inv3
      (fun opt ho hpos => by rw [hcount opt ho] at hpos; cases hpos)
  obtain ⟨inv5, hpairs⟩ := Parse_inv r.1.flags argv r.2 [] p.1 p.2 inv4 e6
  rw [hrf] at hpairs
  refine ⟨by simpa using inv5, ?_, ?_⟩
  · intro f hf hb
    simp only [hrfields] at hf
    obtain ⟨opt, ho, hl, hv⟩ := hreg f hf hb
    obtain ⟨opt2, ho2, hl2, hv2⟩ := pairs_mem flags3 p.1 hpairs opt ho
    exact ⟨opt2, ho2, hl2.trans hl, hv2.trans hv⟩
  · intro opt ho i hv
    obtain ⟨opt3, ho3, -, hv3⟩ := pairs_mem p.1 flags3 hpairs.symm opt ho
    exact hnocmd3 opt3 ho3 i (hv3.trans hv)

theorem command_setup_steps (c : Command) (a : App) (argv2 : CmdLine) (h : Heap)
    (a2 : App) (fields : List field) (h2 : Heap)
    (hrun : c.setup a argv2 h = .ok (a2, fields, h2)) :
    ∃ flags h1 p,
      parseFields .cmd c.Config = .ok fields
      ∧ addToFlags fields h a.flags = .ok flags
      ∧ c.tryConfig { a with flags := flags } fields h = .ok h1
      ∧ flags.Parse argv2 h1 = .ok p
      ∧ a2 = { a with flags := p.1 } ∧ h2 = p.2 := by
  unfold Command.setup at hrun
  simp only [bind, Except.bind, pure, Except.pure] at hrun
  split at hrun
  · cases hrun
  · rename_i fields0 e1
    split at hrun
    · cases hrun
    · rename_i flags e2
      split at hrun
      · cases hrun
      · rename_i h1 e3
        split at hrun
        · cases hrun
        · rename_i p e4
          simp only [Except.ok.injEq, Prod.mk.injEq] at hrun
          obtain ⟨r1, r2, r3⟩ := hrun
          subst r2
          exact ⟨flags, h1, p, e1, e2, e3, e4, r1.symm, r3.symm⟩

theorem Command.tryConfig_other (c : Command) (a : App) (fields : List field) (h h1 : Heap)
    (ref : Ref) (ht : c.tryConfig a fields h = .ok h1) (hne : ∀ f ∈ fields, f.iface ≠ ref) :
    h1.read ref = h.read ref := by
  unfold Command.tryConfig at ht
  split at ht
  · exact mergeSegment_other _ fields h h1 ref ht hne
  · cases ht
    rfl

/-- After the command pipeline, started from a state in which the invariant
holds for the occurrences `p` and no option is bound to a cell of the
command record, the invariant holds for `p` followed by the occurrences of
the second parse, every command field of one of the five kinds has its
option, and the options of the application are kept. -/
theorem command_setup_inv (c : Command) (a : App) (argv2 : CmdLine) (h : Heap)
    (p : List Occurrence) (a2 : App) (fields : List field) (h2 : Heap)
    (inv : FlagInv a.flags h p)
    (hnocmd : ∀ opt ∈ a.flags.options, ∀ i, opt.value ≠ .member .cmd i)
    (hrun : c.setup a argv2 h = .ok (a2, fields, h2)) :
    FlagInv a2.flags h2 (p ++ argv2.occs)
      ∧ (∀ f ∈ fields, bindable (h.read f.iface) = true →
          ∃ opt ∈ a2.flags.options, opt.long = f.long ∧ opt.value = f.iface)
      ∧ (∀ opt ∈ a.flags.options,
          ∃ opt2 ∈ a2.flags.options, opt2.long = opt.long ∧ opt2.value = opt.value)
      ∧ a2.fields = a.fields := by
  obtain ⟨flags, h1, q, e1, e2, e3, e4, rfl, rfl⟩ :=
    command_setup_steps c a argv2 h a2 fields h2 hrun
  obtain ⟨hnd, hcmd⟩ := parseFields_refs .cmd c.Config fields e1
  have hfresh : ∀ f ∈ fields, f.iface ∉ a.flags.options.map Opt.value := by
    intro f hf hin
    obtain ⟨x, hx, hxv⟩ := List.mem_map.1 hin
    obtain ⟨i, hi⟩ := hcmd f hf
    exact hnocmd x hx i (hxv.trans hi)
  obtain ⟨inv1, hkeep, hreg, hnew⟩ := addToFlags_inv fields h p a.flags flags inv hnd hfresh e2
  have inv2 : FlagInv flags h1 p := by
    apply FlagInv.heap_change flags h h1 p inv1
    intro opt ho hpos
    apply Command.tryConfig_other c _ fields h h1 opt.value e3
    intro f hf hfv
    rcases hnew opt ho with hin | ⟨hc, -⟩
    · obtain ⟨i, hi⟩ := hcmd f hf
      exact hnocmd opt hin i (hfv.symm.trans hi)
    · rw [hc] at hpos
      cases hpos
  obtain ⟨inv3, hpairs⟩ := Parse_inv flags argv2 h1 p q.1 q.2 inv2 e4
  refine ⟨inv3, ?_, ?_, rfl⟩
  · intro f hf hb
    obtain ⟨opt, ho, hl, hv⟩ := hreg f hf hb
    obtain ⟨opt2, ho2, hl2, hv2⟩ := pairs_mem flags q.1 hpairs opt ho
    exact ⟨opt2, ho2, hl2.trans hl, hv2.trans hv⟩
  · intro opt ho
    exact pairs_mem flags q.1 hpairs opt (hkeep opt ho)

/-- C1. Flags win over the configuration document. After the root pipeline
(the merge of `App.tryConfig`, then the parse), the cell of every root field
of one of the five kinds whose option was seen holds the value the command
line gives to that option, a function of the occurrences alone in which
neither the document nor the defaults take part. After the command pipeline
on top of it (the merge of `Command.tryConfig`, then the second parse) the
same holds for the root fields and the command fields, with the occurrences
of both parses. -/
theorem flags_win (a : App) (file : ConfigRead) (argv : CmdLine) (h0 : Heap)
    (a1 : App) (h1 : Heap) (hroot : a.setup file argv h0 = .ok (a1, h1)) :
    (∀ f ∈ a1.fields, bindable (h0.read f.iface) = true →
        ∀ opt, a1.flags.Lookup f.long = some opt → opt.Seen = true →
          h1.read f.iface = cmdLineValue argv.occs f.long)
      ∧ (∀ (c : Command) (argv2 : CmdLine) (a2 : App) (fields : List field) (h2 : Heap),
          c.setup a1 argv2 { h1 with cmd := cellsOf c.Config } = .ok (a2, fields, h2) →
          (∀ f ∈ a1.fields, bindable (h0.read f.iface) = true →
            ∀ opt, a2.flags.Lookup f.long = some opt → opt.Seen = true →
              h2.read f.iface = cmdLineValue (argv.occs ++ argv2.occs) f.long)
          ∧ (∀ f ∈ fields,
              bindable (({ h1 with cmd := cellsOf c.Config } : Heap).read f.iface) = true →
            ∀ opt, a2.flags.Lookup f.long = some opt → opt.Seen = true →
              h2.read f.iface = cmdLineValue (argv.occs ++ argv2.occs) f.long)) := by
  obtain ⟨inv, hreg, hnocmd⟩ := root_setup_inv a file argv h0 a1 h1 hroot
  refine ⟨?_, ?_⟩
  · intro f hf hb opt hl hseen
    exact FlagInv.seen_field a1.flags h1 argv.occs f inv (hreg f hf hb) opt hl hseen
  · intro c argv2 a2 fields h2 hcmd
    have invc : FlagInv a1.flags { h1 with cmd := cellsOf c.Config } argv.occs :=
      FlagInv.heap_change a1.flags h1 _ argv.occs inv
        (fun opt ho _ => Heap.read_with_cmd h1 _ opt.value (hnocmd opt ho))
    obtain ⟨inv2, hregc, hkeep, -⟩ :=
      command_setup_inv c a1 argv2 _ argv.occs a2 fields h2 invc hnocmd hcmd
    refine ⟨?_, ?_⟩
    · intro f hf hb opt hl hseen
      obtain ⟨o1, ho1, hl1, hv1⟩ := hreg f hf hb
      obtain ⟨o2, ho2, hl2, hv2⟩ := hkeep o1 ho1
      exact FlagInv.seen_field a2.flags h2 _ f inv2
        ⟨o2, ho2, hl2.trans hl1, hv2.trans hv1⟩ opt hl hseen
    · intro f hf hb opt hl hseen
      exact FlagInv.seen_field a2.flags h2 _ f inv2 (hregc f hf hb) opt hl hseen

end

/-! ## Runs on concrete inputs -/

theorem promptBool_first_accepted_witness :
    promptBool "Proceed" { stdin := ["maybe", "", "Yes", "no"], stdout := [] }
      = .ok (true, { stdin := ["no"], stdout := ["Proceed (yes/no)", "Proceed (yes/no)", "Proceed (yes/no)"] }) :=
  (promptBool_first_accepted "Proceed" ["maybe", ""] ["no"] [] "Yes" (by decide) (by decide)).1

/-- C5 (failing input). On a record whose only member carries an empty
`short` tag, `parseFields` does not return a descriptor list: indexing
`short[0]` panics. -/
theorem parseFields_empty_short_tag_crashes :
    parseFields .root (some ⟨"main.Config", [(⟨"Verbose", "", [("short", "")]⟩, .bool false)]⟩)
      = .error (.crash "index out of range [0] with length 0") := by
  decide

/-- C6 (counterexample). A record with a member tagged with the empty `long` name and two
members whose names differ only in case: `parseFields` returns descriptors,
one with an empty long name and two sharing the long name `host`. -/
theorem long_names_counterexample :
    ∃ fs, parseFields .root (some ⟨"main.Config",
        [(⟨"Token", "", [("long", "")]⟩, .string ""), (⟨"Host", "", []⟩, .string ""),
         (⟨"HOST", "", []⟩, .string "")]⟩) = .ok fs
      ∧ fs.map field.long = ["", "host", "host"]
      ∧ (∃ f ∈ fs, f.long = "") ∧ ¬ (fs.map field.long).Nodup := by
  refine ⟨_, rfl, ?_, ?_, ?_⟩ <;> decide

theorem parseFields_long_names_witness :
    ([describe .root 0 ⟨"Host", "", []⟩, describe .root 1 ⟨"Port", "", [("long", "p")]⟩].map field.long
        = ["host", "p"]) :=
  (parseFields_long_names .root
    (some ⟨"main.Config", [(⟨"Host", "", []⟩, .string ""), (⟨"Port", "", [("long", "p")]⟩, .int 0)]⟩)
    [describe .root 0 ⟨"Host", "", []⟩, describe .root 1 ⟨"Port", "", [("long", "p")]⟩]
    (by decide)).1

/-- C7 (counterexample). Two commands sharing the name `sync`, both with a
description: registration does not fail, and the first command is not
reachable under its name, which maps to the second. -/
theorem registerCommands_duplicate_counterexample :
    ∃ m, registerCommands [⟨"sync", "first", none, none, false⟩, ⟨"sync", "second", none, none, true⟩]
        = .ok m
      ∧ mapGet m "sync" = some ⟨"sync", "second", none, none, true⟩
      ∧ mapGet m "sync" ≠ some ⟨"sync", "first", none, none, false⟩ := by
  refine ⟨_, rfl, ?_, ?_⟩ <;> decide

/-- C8 (failing input). A record with the unsigned member `Count` and the
document `count: 5`: the merge of `App.tryConfig` panics in `field.set`, so
the run ends in a crash instead of storing 5. -/
theorem tryConfig_unsigned_crashes :
    countApp.Run { emptyEnv with file := .document (some [(.string "count", docValue (.uint 5))]) }
      = .error (.crash "interface conversion: interface {} is not uint") := by
  decide

/-- C10 (failing input). A record with the member `Ratio` of type
`float64`, no configuration file and no arguments: no flag is registered for
it, and `promptForMissing` on the descriptor list dereferences the nil
that `Lookup` returns, so the run ends in a crash. -/
theorem promptForMissing_unbound_member_crashes :
    addToFlags [describe .root 0 ⟨"Ratio", "", []⟩] ⟨false, false, [.other "float64" "0"], []⟩
        FlagSet.New = .ok FlagSet.New
      ∧ promptForMissing none FlagSet.New [describe .root 0 ⟨"Ratio", "", []⟩]
          (⟨false, false, [.other "float64" "0"], []⟩, ⟨[], []⟩)
        = .error (.crash "invalid memory address or nil pointer dereference")
      ∧ ratioApp.Run emptyEnv
        = .error (.crash "invalid memory address or nil pointer dereference") := by
  refine ⟨?_, ?_, ?_⟩ <;> decide

/-- C3 (failing input). The command `sync` is registered without an
action and selected on the command line: `Command.Run` takes
`reflect.TypeOf` of the nil action and calls `Kind` on the nil type, so the
run ends in a crash and not in the fatal error path. -/
theorem absent_command_action_crashes :
    (⟨"sync", "synchronise", none, none, false⟩ : Command).dispatch syncApp
        = .error (.crash "invalid memory address or nil pointer dereference")
      ∧ syncApp.Run { emptyEnv with argv := ⟨[], ["sync"]⟩ }
        = .error (.crash "invalid memory address or nil pointer dereference")
      ∧ (Failure.crash "invalid memory address or nil pointer dereference").isFatal = false := by
  refine ⟨?_, ?_, ?_⟩ <;> decide

/-- C4 (counterexample). The command record and the root record are two
structs of the same type `main.Config`: the parameter type `*main.Config`
matches two injectables, and an action declaring it twice is called with the
command record twice and never receives the root record. -/
theorem bindArgs_tie_counterexample :
    typeOfConfig sharedCmd.Config = typeOfConfig sharedApp.Config
      ∧ sharedCmd.dispatch sharedApp = .ok [.config .cmd, .config .cmd]
      ∧ sharedApp.Run { emptyEnv with argv := ⟨[], ["sync"]⟩ }
        = .ok ([.config .cmd, .config .cmd], ⟨false, false, [], []⟩, ⟨[], []⟩)
      ∧ Injected.config .root ∉ [Injected.config .cmd, Injected.config .cmd] := by
  refine ⟨?_, ?_, ?_, ?_⟩ <;> decide

theorem flags_win_witness :
    ∃ a1 h1, tagsApp.setup (.document (some tagsDoc)) tagsArgv tagsHeap = .ok (a1, h1)
      ∧ h1.read (.member .root 0) = some (.stringSlice ["a", "b", "c"]) :=
  ⟨_, _, rfl,
    ((flags_win tagsApp (.document (some tagsDoc)) tagsArgv tagsHeap _ _ rfl).1
      (describe .root 0 ⟨"Tags", "", []⟩) (by decide) (by decide)
      ⟨"tags", 0, "Tags", .member .root 0, 2⟩ (by decide) (by decide)).trans (by decide)⟩

/-- C2 (counterexample). The command `scale` has the promptable member
`Ratio` of type `float64`, and the root record an integer member `Ratio`
whose option answers the lookup of `ratio`: that option was not seen, there
is no segment and the member is prompt-eligible, yet `promptForMissing`
returns without a prompt and without reading the answer, in the pass itself
and in the run of the command. -/
theorem promptForMissing_other_kind_counterexample :
    shouldPrompt none scaleFlags (describe .cmd 0 ⟨"Ratio", "", [("prompt", "yes")]⟩) = true
      ∧ promptForMissing none scaleFlags [describe .cmd 0 ⟨"Ratio", "", [("prompt", "yes")]⟩]
          (⟨false, false, [.int 1], [.other "float64" "0"]⟩, ⟨["1.5"], []⟩)
        = .ok (⟨false, false, [.int 1], [.other "float64" "0"]⟩, ⟨["1.5"], []⟩)
      ∧ scaleApp.Run { emptyEnv with argv := ⟨[], ["scale"]⟩, stdin := ["1.5"] }
        = .ok ([.args []], ⟨false, false, [.int 1], [.other "float64" "0"]⟩, ⟨["1.5"], []⟩) := by
  refine ⟨?_, ?_, ?_⟩ <;> decide

theorem promptForMissing_prompts_iff_witness :
    List.filter (shouldPrompt (some hostSegment) fourFlags) fourFields
        = [describe .root 2 ⟨"User", "", [("prompt", "yes")]⟩]
      ∧ promptForMissing (some hostSegment) fourFlags fourFields (fourHeap, ⟨["alice"], []⟩)
        = .ok (⟨false, false, [.string "example.org", .int 8080, .string "alice", .bool false], []⟩,
            ⟨[], ["User"]⟩) :=
  ⟨by decide,
    ((promptForMissing_prompts_iff (some hostSegment) fourFlags fourFields (by decide)).1
      (fourHeap, ⟨["alice"], []⟩)).trans (by decide)⟩
/-- The end-to-end scenario of a promptable `Name` without flag and without
configuration entry: the answer `alice` is stored. When the configuration
file is malformed after the entry `name`, nothing is merged, yet the entry
left in `configFile` suppresses the prompt. -/
theorem malformed_file_suppresses_prompt :
    nameApp.Run { emptyEnv with stdin := ["alice"] }
        = .ok ([.config .root], ⟨false, false, [.string "alice"], []⟩, ⟨[], ["Name"]⟩)
      ∧ nameApp.Run { emptyEnv with
            file := .malformed (some [(.string "name", .string "bob")]), stdin := ["alice"] }
        = .ok ([.config .root], ⟨false, false, [.string ""], []⟩, ⟨["alice"], []⟩) := by
  refine ⟨?_, ?_⟩ <;> decide

/-- What the end of `Run` makes of the value the action returned: no error,
a fatal error, or a panic in the reflection on a result that is not held by
an interface. -/
theorem afterCall_cases :
    nameApp.Run { emptyEnv with stdin := ["alice"], actionResult := .held "boom" }
        = .error (.fatal "boom")
      ∧ nameApp.Run { emptyEnv with stdin := ["alice"], actionResult := .pointee false "boom" }
        = .error (.crash "interface conversion: missing method Error")
      ∧ afterCall (.pointee false "boom")
        = .error (.crash "interface conversion: missing method Error")
      ∧ afterCall .otherKind
        = .error (.crash "reflect: call of reflect.Value.Elem on a value that is neither interface nor pointer")
      ∧ afterCall .nilValue = .ok () := by
  refine ⟨?_, ?_, ?_, ?_, ?_⟩ <;> decide
end Clinic
